import Mathlib

/-!
Verification development for the ldesign-bookmark core: the `BookmarkIndex`
engine (`src/unnamed/part_006`, i.e. `utils/bookmark-index`), the
`BookmarkCache` LRU/persistence manager
(`src/packages/core/src/managers/bookmark-cache.ts`) and the `EventEmitter`
(`src/packages/core/src/utils/event-emitter.ts`), shallowly embedded in Lean.

JavaScript `Map`s are modelled as association lists that keep insertion order
(`Map.set` on an existing key replaces the value in place, otherwise appends;
this matches JS iteration-order semantics).  JS `Set<string>` is modelled as a
duplicate-free list in insertion order.  Timestamps are integers
(milliseconds); fractional scores use `ℚ`.
-/

set_option maxHeartbeats 1000000

/-- Lookup in an insertion-ordered association list (JS `Map.get`; a JS map
holds at most one entry per key, so first-match lookup is exact). -/
def mapGet {α : Type} : List (String × α) → String → Option α
  | [], _ => none
  | p :: m, k => if p.1 = k then some p.2 else mapGet m k

/-- Key-presence test (JS `Map.has`). -/
def mapHas {α : Type} : List (String × α) → String → Bool
  | [], _ => false
  | p :: m, k => p.1 = k || mapHas m k

/-- JS `Map.set`: replace in place if the key exists, else append. -/
def mapSet {α : Type} : List (String × α) → String → α → List (String × α)
  | [], k, v => [(k, v)]
  | p :: m, k, v => if p.1 = k then (k, v) :: m else p :: mapSet m k v

/-- JS `Map.delete`: drop the entry with the given key. -/
def mapDelete {α : Type} : List (String × α) → String → List (String × α)
  | [], _ => []
  | p :: m, k => if p.1 = k then mapDelete m k else p :: mapDelete m k

/-- JS `Set.add` on a duplicate-free insertion-ordered list. -/
def setAdd (s : List String) (x : String) : List String :=
  if x ∈ s then s else s ++ [x]

/-- `String.prototype.toLowerCase()` as used for tag keys (character-wise
lowering; `String.toLower` itself is not kernel-reducible, so the identical
character-map form is spelled out). -/
def jsToLower (s : String) : String :=
  ⟨s.data.map Char.toLower⟩

/-! ## Tree model (`types/bookmark-item.ts`)

`BookmarkLeafItem` / `BookmarkFolderItem` / `BookmarkSeparatorItem`.  Only the
fields consulted by the indexed operations are carried (`title` is kept for
item identity; purely decorative optional fields such as `icon`, `pinned`,
`createdAt`, … are never read by `build`/`update`/`delete`/tag/url queries and
are omitted).  A separator's `id` is optional (`id?: string`). -/

inductive BookmarkItem : Type where
  | leaf (id : String) (title : String) (url : String) (tags : Option (List String))
  | folder (id : String) (title : String) (children : List BookmarkItem)
  | separator (id : Option String)

mutual

def itemDecEq : (a b : BookmarkItem) → Decidable (a = b)
  | .leaf i1 t1 u1 g1, .leaf i2 t2 u2 g2 =>
    if h1 : i1 = i2 then
      if h2 : t1 = t2 then
        if h3 : u1 = u2 then
          if h4 : g1 = g2 then isTrue (by rw [h1, h2, h3, h4])
          else isFalse (by intro h; cases h; exact h4 rfl)
        else isFalse (by intro h; cases h; exact h3 rfl)
      else isFalse (by intro h; cases h; exact h2 rfl)
    else isFalse (by intro h; cases h; exact h1 rfl)
  | .folder i1 t1 c1, .folder i2 t2 c2 =>
    if h1 : i1 = i2 then
      if h2 : t1 = t2 then
        match itemsDecEq c1 c2 with
        | isTrue h3 => isTrue (by rw [h1, h2, h3])
        | isFalse h3 => isFalse (by intro h; cases h; exact h3 rfl)
      else isFalse (by intro h; cases h; exact h2 rfl)
    else isFalse (by intro h; cases h; exact h1 rfl)
  | .separator o1, .separator o2 =>
    if h1 : o1 = o2 then isTrue (by rw [h1])
    else isFalse (by intro h; cases h; exact h1 rfl)
  | .leaf _ _ _ _, .folder _ _ _ => isFalse (by intro h; cases h)
  | .leaf _ _ _ _, .separator _ => isFalse (by intro h; cases h)
  | .folder _ _ _, .leaf _ _ _ _ => isFalse (by intro h; cases h)
  | .folder _ _ _, .separator _ => isFalse (by intro h; cases h)
  | .separator _, .leaf _ _ _ _ => isFalse (by intro h; cases h)
  | .separator _, .folder _ _ _ => isFalse (by intro h; cases h)

def itemsDecEq : (a b : List BookmarkItem) → Decidable (a = b)
  | [], [] => isTrue rfl
  | [], _ :: _ => isFalse (by intro h; cases h)
  | _ :: _, [] => isFalse (by intro h; cases h)
  | a :: as, b :: bs =>
    match itemDecEq a b with
    | isTrue h1 =>
      match itemsDecEq as bs with
      | isTrue h2 => isTrue (by rw [h1, h2])
      | isFalse h2 => isFalse (by intro h; cases h; exact h2 rfl)
    | isFalse h1 => isFalse (by intro h; cases h; exact h1 rfl)

end

instance : DecidableEq BookmarkItem := itemDecEq

/-- `isFolder` (bookmark-utils.ts): `item.type === 'folder'`. -/
def isFolderItem : BookmarkItem → Bool
  | .folder _ _ _ => true
  | _ => false

/-- `isBookmark` (bookmark-utils.ts): `!item.type || item.type === 'bookmark'`. -/
def isBookmarkItem : BookmarkItem → Bool
  | .leaf _ _ _ _ => true
  | _ => false

/-- `isSeparator` (bookmark-utils.ts): `item.type === 'separator'`. -/
def isSeparatorItem : BookmarkItem → Bool
  | .separator _ => true
  | _ => false

/-- `getItemId` (bookmark-utils.ts): `'id' in item ? item.id : undefined`.
Leaves and folders always carry `id`; a separator carries it optionally. -/
def getItemId : BookmarkItem → Option String
  | .leaf i _ _ _ => some i
  | .folder i _ _ => some i
  | .separator oid => oid

/-- The id as used by `buildRecursive`'s `if (!id) continue`: a present but
empty string is falsy in JS, so it is treated as absent. -/
def truthyId (it : BookmarkItem) : Option String :=
  match getItemId it with
  | none => none
  | some s => if s = "" then none else some s

/-- The `tags` list consulted by `'tags' in item && Array.isArray(item.tags)`:
present only on leaf items carrying a `tags` array. -/
def itemTags : BookmarkItem → List String
  | .leaf _ _ _ (some ts) => ts
  | _ => []

/-- The url consulted by `isBookmark(item) && item.url` (empty string is
falsy in JS). -/
def itemUrl : BookmarkItem → Option String
  | .leaf _ _ u _ => if u = "" then none else some u
  | _ => none

/-! ## The index state (`BookmarkIndex` fields). -/

structure BookmarkIndex : Type where
  itemMap : List (String × BookmarkItem)
  parentMap : List (String × String)
  pathMap : List (String × List String)
  tagIndex : List (String × List String)
  urlIndex : List (String × String)
  childrenIndex : List (String × List String)
deriving DecidableEq

/-- `clear()` / the state of a fresh `BookmarkIndex`. -/
def emptyIndex : BookmarkIndex :=
  ⟨[], [], [], [], [], []⟩

/-- The tag-registration loop of `buildRecursive` and `update`:
for each tag, add the id to `tagIndex[tag.toLowerCase()]`, creating the set
on demand. -/
def addIdToTags (ti : List (String × List String)) (id : String) :
    List String → List (String × List String)
  | [] => ti
  | t :: rest =>
    let k := jsToLower t
    addIdToTags (mapSet ti k (setAdd ((mapGet ti k).getD []) id)) id rest

/-- The tag-removal loop of `update`/`delete`:
`tagIndex.get(tag.toLowerCase())?.delete(id)`. -/
def removeIdFromTags (ti : List (String × List String)) (id : String) :
    List String → List (String × List String)
  | [] => ti
  | t :: rest =>
    let k := jsToLower t
    match mapGet ti k with
    | none => removeIdFromTags ti id rest
    | some s => removeIdFromTags (mapSet ti k (s.erase id)) id rest

/-- The per-item bookkeeping of `buildRecursive` for an item with truthy id
`i`: register `itemMap`, `parentMap` (when nested), `pathMap`, `tagIndex`
and `urlIndex`.  Does not touch `childrenIndex`. -/
def indexOne (idx : BookmarkIndex) (i : String) (it : BookmarkItem)
    (parentId : Option String) (path : List String) : BookmarkIndex :=
  { itemMap := mapSet idx.itemMap i it
    parentMap := match parentId with
      | some pid => mapSet idx.parentMap i pid
      | none => idx.parentMap
    pathMap := mapSet idx.pathMap i (path ++ [i])
    tagIndex := addIdToTags idx.tagIndex i (itemTags it)
    urlIndex := match itemUrl it with
      | some u => mapSet idx.urlIndex u i
      | none => idx.urlIndex
    childrenIndex := idx.childrenIndex }

/-- `buildRecursive(items, parentId, path)`: walks the list in order, skipping
items without a truthy id (skipping their whole subtree, since the `continue`
fires before the recursion); recurses into a folder's children with the folder
as parent and the extended path, and afterwards stores the folder's collected
child-id list into `childrenIndex` when it is non-empty.  Returns the updated
index together with the truthy child ids of this level (the caller's
`childIds`). -/
def buildItems : List BookmarkItem → Option String → List String → BookmarkIndex →
    BookmarkIndex × List String
  | [], _, _, idx => (idx, [])
  | .leaf i t u tg :: rest, parentId, path, idx =>
    if i = "" then buildItems rest parentId path idx
    else
      let idx1 := indexOne idx i (.leaf i t u tg) parentId path
      let r := buildItems rest parentId path idx1
      (r.1, i :: r.2)
  | .separator oid :: rest, parentId, path, idx =>
    match oid with
    | none => buildItems rest parentId path idx
    | some i =>
      if i = "" then buildItems rest parentId path idx
      else
        let idx1 := indexOne idx i (.separator (some i)) parentId path
        let r := buildItems rest parentId path idx1
        (r.1, i :: r.2)
  | .folder i t cs :: rest, parentId, path, idx =>
    if i = "" then buildItems rest parentId path idx
    else
      let idx1 := indexOne idx i (.folder i t cs) parentId path
      let rc := buildItems cs (some i) (path ++ [i]) idx1
      let idx2 :=
        if rc.2.isEmpty then rc.1
        else { rc.1 with childrenIndex := mapSet rc.1.childrenIndex i rc.2 }
      let r := buildItems rest parentId path idx2
      (r.1, i :: r.2)

/-- `build(items)`: clear, then `buildRecursive(items, undefined, [])`. -/
def build (items : List BookmarkItem) : BookmarkIndex :=
  (buildItems items none [] emptyIndex).1

/-- `get(id)`. -/
def BookmarkIndex.get (idx : BookmarkIndex) (id : String) : Option BookmarkItem :=
  mapGet idx.itemMap id

/-- `getParentId(id)`. -/
def BookmarkIndex.getParentId (idx : BookmarkIndex) (id : String) : Option String :=
  mapGet idx.parentMap id

/-- `getPath(id)` (`|| []`). -/
def BookmarkIndex.getPath (idx : BookmarkIndex) (id : String) : List String :=
  (mapGet idx.pathMap id).getD []

/-- `has(id)`. -/
def BookmarkIndex.has (idx : BookmarkIndex) (id : String) : Bool :=
  mapHas idx.itemMap id

/-- `getAllIds()`: `Array.from(this.itemMap.keys())`. -/
def BookmarkIndex.getAllIds (idx : BookmarkIndex) : List String :=
  idx.itemMap.map Prod.fst

/-- `getChildren(parentId)`: map the stored child ids back through `itemMap`,
dropping ids that do not resolve. -/
def BookmarkIndex.getChildren (idx : BookmarkIndex) (parentId : String) :
    List BookmarkItem :=
  ((mapGet idx.childrenIndex parentId).getD []).filterMap (mapGet idx.itemMap)

/-- `findByTag(tag)`. -/
def BookmarkIndex.findByTag (idx : BookmarkIndex) (tag : String) : List BookmarkItem :=
  match mapGet idx.tagIndex (jsToLower tag) with
  | none => []
  | some ids => ids.filterMap (mapGet idx.itemMap)

/-- `findByTags(tags)` (AND semantics): every supplied tag's set must exist
(`tagSets.length !== tags.length` short-circuits to `[]`), then the
intersection of the sets is resolved through `itemMap`. -/
def BookmarkIndex.findByTags (idx : BookmarkIndex) (tags : List String) :
    List BookmarkItem :=
  if tags.isEmpty then []
  else
    let tagSets := tags.filterMap (fun t => mapGet idx.tagIndex (jsToLower t))
    if tagSets.length ≠ tags.length then []
    else
      match tagSets with
      | [] => []
      | first :: rest =>
        (first.filter (fun id => rest.all (fun s => s.contains id))).filterMap
          (mapGet idx.itemMap)

/-- `update(id, item)`: no-op when the id is absent; otherwise removes the id
from the old item's tag sets, registers it under the new item's tags, swaps
the url entry, and replaces the stored item.  `parentMap`, `pathMap` and
`childrenIndex` are not touched. -/
def BookmarkIndex.update (idx : BookmarkIndex) (id : String) (item : BookmarkItem) :
    BookmarkIndex :=
  match mapGet idx.itemMap id with
  | none => idx
  | some oldItem =>
    let ti := addIdToTags (removeIdFromTags idx.tagIndex id (itemTags oldItem)) id
      (itemTags item)
    let ui1 := match itemUrl oldItem with
      | some u => mapDelete idx.urlIndex u
      | none => idx.urlIndex
    let ui2 := match itemUrl item with
      | some u => mapSet ui1 u id
      | none => ui1
    { idx with itemMap := mapSet idx.itemMap id item, tagIndex := ti, urlIndex := ui2 }

/-! ## `delete(id, recursive)`

The source recursion runs over `childrenIndex`, which mutates while the
recursion proceeds, so the Lean embedding carries explicit fuel; the public
`delete` supplies fuel `itemMap.length + 1`, which can never run out on
acyclic index states (the recursion visits pairwise-distinct indexed ids),
i.e. on every state the source can actually build from a tree.

The child loop `for (const childId of childIds) this.delete(childId, true)`
iterates the LIVE array: `childIds` is the very array object stored in
`childrenIndex`, and each child's own deletion splices that child out of it
(the child's `parentMap` entry points back at the folder being deleted), so
the array iterator advances past the element that slid into the vacated
slot.  The embedding models the array iterator exactly: an index that is
checked against the current length of the (re-read) entry at each step.
The iterator bound `gas`, seeded with the initial length, is never the
binding constraint, because a step both increments the index and can only
shrink the list (`splice` removes; nothing in `delete` ever appends). -/

/-- The non-recursive portion of `delete(id)` that runs once the item has been
found and (when recursing) the children have been visited: splice the id out
of its parent's child list (`if (parentId)` — the empty string is falsy),
then drop the id from the four id-keyed maps.  (Tag and url removal happen
before the recursion; see `deleteFuel`.) -/
def deleteFinish (idx : BookmarkIndex) (id : String) : BookmarkIndex :=
  let idx4 := match mapGet idx.parentMap id with
    | some pid =>
      if pid = "" then idx
      else
        match mapGet idx.childrenIndex pid with
        | some siblings =>
          { idx with childrenIndex := mapSet idx.childrenIndex pid (siblings.erase id) }
        | none => idx
    | none => idx
  { itemMap := mapDelete idx4.itemMap id
    parentMap := mapDelete idx4.parentMap id
    pathMap := mapDelete idx4.pathMap id
    tagIndex := idx4.tagIndex
    urlIndex := idx4.urlIndex
    childrenIndex := idx4.childrenIndex |> fun ci => mapDelete ci id }

/-- The live-array child loop: `f` is the recursive deletion at the next
fuel level, `i` the array iterator's index, and the entry is re-read from
`childrenIndex` at every step, mirroring the mutating JS array. -/
def deleteKids (f : BookmarkIndex → String → BookmarkIndex) :
    Nat → BookmarkIndex → String → Nat → BookmarkIndex
  | 0, idx, _, _ => idx
  | gas + 1, idx, id, i =>
    let a := (mapGet idx.childrenIndex id).getD []
    if h : i < a.length then
      deleteKids f gas (f idx (a.get ⟨i, h⟩)) id (i + 1)
    else idx

/-- `delete(id, recursive)` with explicit fuel: no-op when the id is absent
from `itemMap`; otherwise removes the id from its tag sets and its url entry,
then, when `recursive` and the item is a folder, runs the live-array child
loop over `childrenIndex[id] || []`, and finishes with the parent splice and
the four map deletions. -/
def deleteFuel : Nat → BookmarkIndex → String → Bool → BookmarkIndex
  | 0, idx, _, _ => idx
  | fuel + 1, idx, id, recursive =>
    match mapGet idx.itemMap id with
    | none => idx
    | some item =>
      let idx1 := { idx with tagIndex := removeIdFromTags idx.tagIndex id (itemTags item) }
      let idx2 := match itemUrl item with
        | some u => { idx1 with urlIndex := mapDelete idx1.urlIndex u }
        | none => idx1
      let idx3 :=
        if recursive && isFolderItem item then
          deleteKids (fun acc cid => deleteFuel fuel acc cid true)
            ((mapGet idx2.childrenIndex id).getD []).length idx2 id 0
        else idx2
      deleteFinish idx3 id

/-- `delete(id, recursive = true)`. -/
def BookmarkIndex.delete (idx : BookmarkIndex) (id : String) (recursive : Bool) :
    BookmarkIndex :=
  deleteFuel (idx.itemMap.length + 1) idx id recursive

/-! ## Fuzzy search (`fuzzyMatch`). -/

/-- The pointer walk of `fuzzyMatch`: returns the final
`(matched, maxConsecutive)` counters and whether the whole query was
consumed (`queryIndex` reached `query.length`). -/
def fuzzyWalk : List Char → List Char → Nat → Nat → Nat → Nat × Nat × Bool
  | [], _, matched, _, maxc => (matched, maxc, true)
  | _ :: _, [], matched, _, maxc => (matched, maxc, false)
  | qc :: qrest, tc :: trest, matched, consec, maxc =>
    if qc = tc then
      fuzzyWalk qrest trest (matched + 1) (consec + 1) (max maxc (consec + 1))
    else
      fuzzyWalk (qc :: qrest) trest matched 0 maxc

/-- `fuzzyMatch(query, text)` (scores in `ℚ`):
`0.5·matchRatio + 0.3·consecutiveBonus + 0.2·lengthPenalty`, or `0` when the
walk does not consume the whole query (or either string is empty). -/
def fuzzyMatch (query text : String) : ℚ :=
  if text = "" ∨ query = "" then 0
  else
    let r := fuzzyWalk query.toList text.toList 0 0 0
    if r.2.2 = false then 0
    else
      (r.1 : ℚ) / query.length * (1 / 2) + (r.2.1 : ℚ) / query.length * (3 / 10)
        + min 1 ((query.length : ℚ) / text.length) * (1 / 5)

/-! ## The LRU cache (`bookmark-cache.ts`)

The doubly linked list is modelled by its key sequence `lruList` (head
first); `addToHead` is a cons, `removeNode` erases the key, `moveToHead` is
erase-then-cons and the tail is the last element.  `memoryCache` is the
association list `cacheMap`; `currentSize` is the separately maintained
counter of the source.  Serialization is the identity (the JSON round-trip of
the source); the durable backend is an explicit key→entry map. -/

/-- `CACHE_VERSION = '1.1.0'`. -/
def CACHE_VERSION : String := "1.1.0"

/-- `CacheData` (the compression flag and checksum are never produced by the
modelled paths and are omitted). -/
structure CacheData : Type where
  items : List BookmarkItem
  timestamp : Int
  version : String
  accessCount : Option Nat
  lastAccess : Option Int
deriving DecidableEq

/-- The configuration fields consulted by the modelled operations. -/
structure CacheConfig : Type where
  maxSize : Nat
  ttl : Int
deriving DecidableEq

/-- The in-memory LRU portion of a `BookmarkCache`. -/
structure CacheState : Type where
  lruList : List String
  cacheMap : List (String × CacheData)
  currentSize : Nat
  hitCount : Nat
  missCount : Nat
deriving DecidableEq

/-- A freshly constructed cache. -/
def emptyCache : CacheState :=
  ⟨[], [], 0, 0, 0⟩

/-- `isValid(data)`: the version must equal `CACHE_VERSION`, and when
`ttl > 0` the age `now - timestamp` must not exceed `ttl`. -/
def isValid (cfg : CacheConfig) (data : CacheData) (now : Int) : Bool :=
  if data.version ≠ CACHE_VERSION then false
  else if cfg.ttl > 0 then
    if now - data.timestamp > cfg.ttl then false else true
  else true

/-- `validateAndReturn(data)`. -/
def validateAndReturn (cfg : CacheConfig) (data : CacheData) (now : Int) :
    Option (List BookmarkItem) :=
  if isValid cfg data now then some data.items else none

/-- `evictLRU()`: remove the tail node from the list and the map and
decrement `currentSize` (no-op when the list is empty). -/
def evictLRU (s : CacheState) : CacheState :=
  match s.lruList.getLast? with
  | none => s
  | some tk =>
    { s with lruList := s.lruList.dropLast
             cacheMap := mapDelete s.cacheMap tk
             currentSize := s.currentSize - 1 }

/-- `setInMemory(key, data)`: update-in-place and promote when the key
exists; otherwise insert at the head, grow `currentSize`, and evict the tail
when `currentSize > maxSize`. -/
def setInMemory (cfg : CacheConfig) (s : CacheState) (k : String) (d : CacheData) :
    CacheState :=
  match mapGet s.cacheMap k with
  | some _ =>
    { s with cacheMap := mapSet s.cacheMap k d
             lruList := k :: s.lruList.erase k }
  | none =>
    let s1 := { s with cacheMap := mapSet s.cacheMap k d
                       lruList := k :: s.lruList
                       currentSize := s.currentSize + 1 }
    if s1.currentSize > cfg.maxSize then evictLRU s1 else s1

/-- `loadFromMemory(key)`: miss counts on absence; on presence the node is
promoted to the head, the hit counter grows, and the entry is validated. -/
def loadFromMemory (cfg : CacheConfig) (s : CacheState) (k : String) (now : Int) :
    Option (List BookmarkItem) × CacheState :=
  match mapGet s.cacheMap k with
  | none => (none, { s with missCount := s.missCount + 1 })
  | some node =>
    (validateAndReturn cfg node now,
     { s with lruList := k :: s.lruList.erase k, hitCount := s.hitCount + 1 })

/-- The entry `save` wraps a payload in:
`{items, timestamp: Date.now(), version: CACHE_VERSION, accessCount: 1,
lastAccess: Date.now()}`. -/
def wrapEntry (items : List BookmarkItem) (now : Int) : CacheData :=
  ⟨items, now, CACHE_VERSION, some 1, some now⟩

/-- `save` with the memory backend: `setInMemory(key, wrap(items))`. -/
def saveInMemory (cfg : CacheConfig) (s : CacheState) (k : String)
    (items : List BookmarkItem) (now : Int) : CacheState :=
  setInMemory cfg s k (wrapEntry items now)

/-- `clear(key)` acting on the in-memory LRU: when the key is present,
unlink its node, drop it from the map and decrement `currentSize`. -/
def clearKey (s : CacheState) (k : String) : CacheState :=
  match mapGet s.cacheMap k with
  | none => s
  | some _ =>
    { s with lruList := s.lruList.erase k
             cacheMap := mapDelete s.cacheMap k
             currentSize := s.currentSize - 1 }

/-- `clearAll()` acting on the in-memory LRU. -/
def clearAllMemory (s : CacheState) : CacheState :=
  { s with lruList := [], cacheMap := [], currentSize := 0 }

/-- `calculateHitRate()`: `hits / (hits + misses)`, `0` before any access. -/
def calculateHitRate (s : CacheState) : ℚ :=
  if s.hitCount + s.missCount > 0 then
    (s.hitCount : ℚ) / ((s.hitCount : ℚ) + (s.missCount : ℚ))
  else 0

/-- One public cache operation against a memory-backend cache. -/
inductive CacheOp : Type where
  | save (key : String) (items : List BookmarkItem) (now : Int)
  | load (key : String) (now : Int)
  | clear (key : String)
  | clearAll
deriving DecidableEq

/-- Apply one operation. -/
def applyOp (cfg : CacheConfig) (s : CacheState) : CacheOp → CacheState
  | .save k items now => saveInMemory cfg s k items now
  | .load k now => (loadFromMemory cfg s k now).2
  | .clear k => clearKey s k
  | .clearAll => clearAllMemory s

/-- Apply a sequence of operations. -/
def applyOps (cfg : CacheConfig) (s : CacheState) (ops : List CacheOp) : CacheState :=
  ops.foldl (applyOp cfg) s

/-- `load` with a durable backend (`storage`): read the raw entry, validate
it, and on a successful hit re-save the payload through `save`, which wraps
it afresh via `wrapEntry` (the in-place `accessCount`/`lastAccess` mutation
performed on the decoded object before `save` is discarded by that re-wrap).
Returns the result and the updated backend. -/
def loadStorage (cfg : CacheConfig) (storage : List (String × CacheData))
    (k : String) (now : Int) :
    Option (List BookmarkItem) × List (String × CacheData) :=
  match mapGet storage k with
  | none => (none, storage)
  | some data =>
    match validateAndReturn cfg data now with
    | none => (none, storage)
    | some items => (some items, mapSet storage k (wrapEntry items now))

/-! ## The event emitter (`event-emitter.ts`)

One event's handler set, in insertion order.  A handler is abstracted by its
registration id, its `once` flag, its priority, and whether invoking it
throws (`handler(data)` raising); debounce/throttle are not used by the
modelled scenarios.  `emit` snapshots the set, sorts it by priority
descending (stably, as `Array.prototype.sort` is), and runs `callHandler` on
each wrapper of the snapshot: the invocation is logged, and only when it did
not throw does a `once` wrapper get removed from the live set — the
`handlers.delete(wrapper)` sits inside the `try` after `handler(data)`, so a
throwing handler skips it. -/

structure Wrapper : Type where
  hid : Nat
  once : Bool
  throws : Bool
  priority : Int
deriving DecidableEq

/-- Stable descending insertion by priority (`(a, b) => b.priority - a.priority`). -/
def insertDesc (w : Wrapper) : List Wrapper → List Wrapper
  | [] => [w]
  | x :: xs => if x.priority > w.priority then x :: insertDesc w xs else w :: x :: xs

/-- Stable sort by priority descending. -/
def sortDesc : List Wrapper → List Wrapper
  | [] => []
  | w :: ws => insertDesc w (sortDesc ws)

/-- `callHandler` folded over the sorted snapshot: invoke every wrapper of
the snapshot (recording `(hid, threw)`), removing a `once` wrapper from the
live set only when its invocation did not throw. -/
def runHandlers : List Wrapper → List Wrapper → List (Nat × Bool) →
    List Wrapper × List (Nat × Bool)
  | live, [], log => (live, log)
  | live, w :: ws, log =>
    let live' := if !w.throws && w.once then live.erase w else live
    runHandlers live' ws (log ++ [(w.hid, w.throws)])

/-- `emit(event, data)` for one event: sort the subscribed wrappers by
priority descending and run them all; returns the surviving handler set and
the invocation log. -/
def emitOnce (hs : List Wrapper) : List Wrapper × List (Nat × Bool) :=
  runHandlers hs (sortDesc hs) []

/-- A sequence of `n` consecutive `emit`s, concatenating the logs. -/
def emitSeq : List Wrapper → Nat → List Wrapper × List (Nat × Bool)
  | hs, 0 => (hs, [])
  | hs, n + 1 =>
    let r := emitOnce hs
    let rest := emitSeq r.1 n
    (rest.1, r.2 ++ rest.2)

/-! ## Tree-level specification functions

These restate, over the input tree, what the index is meant to contain; they
are the vocabulary the claims are phrased in. -/

/-- The truthy ids of a list's direct members (a folder's `childIds`). -/
def directIds (cs : List BookmarkItem) : List String :=
  cs.filterMap truthyId

/-- All ids the builder registers, in document order: an item without a
truthy id is skipped together with its entire subtree (the `continue` of
`buildRecursive` fires before the recursion into children). -/
def collectIds : List BookmarkItem → List String
  | [] => []
  | .leaf i _ _ _ :: rest => (if i = "" then [] else [i]) ++ collectIds rest
  | .separator oid :: rest =>
    (match oid with
     | some i => if i = "" then [] else [i]
     | none => []) ++ collectIds rest
  | .folder i _ cs :: rest =>
    (if i = "" then [] else i :: collectIds cs) ++ collectIds rest

/-- The `itemMap` entries the builder appends, in document order. -/
def entriesOf : List BookmarkItem → List (String × BookmarkItem)
  | [] => []
  | .leaf i t u tg :: rest =>
    (if i = "" then [] else [(i, .leaf i t u tg)]) ++ entriesOf rest
  | .separator oid :: rest =>
    (match oid with
     | some i => if i = "" then [] else [(i, .separator (some i))]
     | none => []) ++ entriesOf rest
  | .folder i t cs :: rest =>
    (if i = "" then [] else (i, .folder i t cs) :: entriesOf cs) ++ entriesOf rest

/-- The `childrenIndex` entries the builder appends (a folder's entry is
written after its children's entries, and only when the child-id list is
non-empty). -/
def childEntriesOf : List BookmarkItem → List (String × List String)
  | [] => []
  | .folder i _ cs :: rest =>
    (if i = "" then []
     else childEntriesOf cs ++
       (if directIds cs = [] then [] else [(i, directIds cs)])) ++
      childEntriesOf rest
  | _ :: rest => childEntriesOf rest

/-- Membership of a node in the indexed portion of the forest: the node
itself at this level, inside an indexed folder's subtree, or further right. -/
def InForest (x : BookmarkItem) : List BookmarkItem → Bool
  | [] => false
  | .folder i t cs :: rest =>
    x = .folder i t cs || (if i = "" then false else InForest x cs) || InForest x rest
  | it :: rest => x = it || InForest x rest

/-- The index faithfully represents every node of the given (sub)forest:
each truthy id resolves through `itemMap` to its tree node, and each indexed
folder's `childrenIndex` entry (read back with the `|| []` default) is
exactly its truthy child-id list. -/
def RepresentsAll (idx : BookmarkIndex) : List BookmarkItem → Bool
  | [] => true
  | .leaf i t u tg :: rest =>
    (i = "" || mapGet idx.itemMap i == some (.leaf i t u tg)) && RepresentsAll idx rest
  | .separator oid :: rest =>
    (match oid with
     | none => true
     | some i => i = "" || mapGet idx.itemMap i == some (.separator (some i))) &&
      RepresentsAll idx rest
  | .folder i t cs :: rest =>
    (i = "" ||
      (mapGet idx.itemMap i == some (.folder i t cs) &&
       (mapGet idx.childrenIndex i).getD [] == directIds cs &&
       RepresentsAll idx cs)) && RepresentsAll idx rest

/-- A single node is represented when the one-element forest is. -/
def Represents (idx : BookmarkIndex) (x : BookmarkItem) : Bool :=
  RepresentsAll idx [x]

/-- The count of non-separator items of a tree (what spec property 2 counts):
bookmarks and folders at every depth. -/
def nonSeparatorCount : List BookmarkItem → Nat
  | [] => 0
  | .leaf _ _ _ _ :: rest => 1 + nonSeparatorCount rest
  | .separator _ :: rest => nonSeparatorCount rest
  | .folder _ _ cs :: rest => 1 + nonSeparatorCount cs + nonSeparatorCount rest

/-- The count of items the builder actually registers: items carrying a
present, non-empty id, not nested below an id-less item. -/
def countTruthy : List BookmarkItem → Nat
  | [] => 0
  | .leaf i _ _ _ :: rest => (if i = "" then 0 else 1) + countTruthy rest
  | .separator oid :: rest =>
    (match oid with
     | some i => if i = "" then 0 else 1
     | none => 0) + countTruthy rest
  | .folder i _ cs :: rest =>
    (if i = "" then 0 else 1 + countTruthy cs) + countTruthy rest

/-- The global tag-index invariant of index states: an indexed id can only
appear in the set of a tag its own stored item carries (lower-cased), and
the sets are duplicate-free. -/
def TagInvariant (idx : BookmarkIndex) : Prop :=
  (∀ t s, mapGet idx.tagIndex t = some s →
    s.Nodup ∧ ∀ d ∈ s, ∃ x, mapGet idx.itemMap d = some x ∧
      t ∈ (itemTags x).map jsToLower)

/-- The global url-index invariant of index states: a url can only point at
an id whose stored item carries exactly that url. -/
def UrlInvariant (idx : BookmarkIndex) : Prop :=
  (∀ u d, mapGet idx.urlIndex u = some d →
    ∃ x, mapGet idx.itemMap d = some x ∧ itemUrl x = some u)

/-- The reachable-state invariant of the in-memory LRU (claim C2): the
`currentSize` counter, the map and the linked list agree, and the size never
exceeds `maxSize`. -/
def CacheInv (cfg : CacheConfig) (s : CacheState) : Prop :=
  s.currentSize = s.cacheMap.length ∧
  (s.cacheMap.map Prod.fst).Nodup ∧
  s.lruList.Nodup ∧
  (∀ k ∈ s.lruList, mapHas s.cacheMap k = true) ∧
  (∀ p ∈ s.cacheMap, p.1 ∈ s.lruList) ∧
  s.lruList.length = s.cacheMap.length ∧
  s.currentSize ≤ cfg.maxSize

instance (cfg : CacheConfig) (s : CacheState) : Decidable (CacheInv cfg s) := by
  unfold CacheInv
  infer_instance

/-! # Theorems -/

theorem mapGet_cons {α : Type} (p : String × α) (m : List (String × α)) (k : String) :
    mapGet (p :: m) k = if p.1 = k then some p.2 else mapGet m k := rfl

theorem mapHas_eq_false_iff {α : Type} (m : List (String × α)) (k : String) :
    mapHas m k = false ↔ mapGet m k = none := by
  induction m with
  | nil => simp [mapHas, mapGet]
  | cons p m ih =>
    by_cases h : p.1 = k <;> simp [mapHas, mapGet, h, ih]

theorem mapHas_true_iff {α : Type} (m : List (String × α)) (k : String) :
    mapHas m k = true ↔ ∃ v, mapGet m k = some v := by
  induction m with
  | nil => simp [mapHas, mapGet]
  | cons p m ih =>
    by_cases h : p.1 = k <;> simp [mapHas, mapGet, h, ih]

theorem mapGet_append_left {α : Type} (a b : List (String × α)) (k : String) (v : α)
    (h : mapGet a k = some v) : mapGet (a ++ b) k = some v := by
  induction a with
  | nil => simp [mapGet] at h
  | cons p a ih =>
    by_cases hp : p.1 = k <;> simp [mapGet, hp] at h ⊢
    · exact h
    · exact ih h

theorem mapGet_append_right {α : Type} (a b : List (String × α)) (k : String)
    (h : mapGet a k = none) : mapGet (a ++ b) k = mapGet b k := by
  induction a with
  | nil => simp
  | cons p a ih =>
    by_cases hp : p.1 = k <;> simp [mapGet, hp] at h ⊢
    exact ih h

theorem mapGet_mapSet_self {α : Type} (m : List (String × α)) (k : String) (v : α) :
    mapGet (mapSet m k v) k = some v := by
  induction m with
  | nil => simp [mapSet, mapGet]
  | cons p m ih =>
    by_cases hp : p.1 = k <;> simp [mapSet, mapGet, hp, ih]

theorem mapGet_mapSet_ne {α : Type} (m : List (String × α)) (k j : String) (v : α)
    (h : j ≠ k) : mapGet (mapSet m k v) j = mapGet m j := by
  have hkj : ¬ (k = j) := fun hc => h hc.symm
  induction m with
  | nil => simp [mapSet, mapGet, hkj]
  | cons p m ih =>
    by_cases hp : p.1 = k
    · have hs : mapSet (p :: m) k v = (k, v) :: m := by simp [mapSet, hp]
      rw [hs, mapGet_cons, mapGet_cons, hp]
      simp [hkj]
    · have hs : mapSet (p :: m) k v = p :: mapSet m k v := by simp [mapSet, hp]
      rw [hs, mapGet_cons, mapGet_cons]
      by_cases hpj : p.1 = j <;> simp [hpj, ih]

theorem mapSet_fresh {α : Type} (m : List (String × α)) (k : String) (v : α)
    (h : mapHas m k = false) : mapSet m k v = m ++ [(k, v)] := by
  induction m with
  | nil => simp [mapSet]
  | cons p m ih =>
    simp only [mapHas, Bool.or_eq_false_iff] at h
    simp only [mapSet, decide_eq_false_iff_not.mp h.1, if_false]
    rw [ih h.2]
    simp

theorem mapGet_mapDelete_self {α : Type} (m : List (String × α)) (k : String) :
    mapGet (mapDelete m k) k = none := by
  induction m with
  | nil => rfl
  | cons p m ih =>
    by_cases hp : p.1 = k <;> simp [mapDelete, mapGet, hp, ih]

theorem mapGet_mapDelete_ne {α : Type} (m : List (String × α)) (k j : String)
    (h : j ≠ k) : mapGet (mapDelete m k) j = mapGet m j := by
  induction m with
  | nil => rfl
  | cons p m ih =>
    by_cases hp : p.1 = k
    · have hpj : ¬ (p.1 = j) := by rw [hp]; exact fun hc => h hc.symm
      have hd : mapDelete (p :: m) k = mapDelete m k := by simp [mapDelete, hp]
      rw [hd, mapGet_cons, ih]
      simp [hpj]
    · have hd : mapDelete (p :: m) k = p :: mapDelete m k := by simp [mapDelete, hp]
      rw [hd, mapGet_cons, mapGet_cons]
      by_cases hpj : p.1 = j <;> simp [hpj, ih]

theorem mapHas_mapSet {α : Type} (m : List (String × α)) (k j : String) (v : α) :
    mapHas (mapSet m k v) j = (j = k || mapHas m j) := by
  induction m with
  | nil =>
    by_cases hj : j = k
    · simp [mapSet, mapHas, hj]
    · have hkj : ¬ (k = j) := fun hc => hj hc.symm
      simp [mapSet, mapHas, hj, hkj]
  | cons p m ih =>
    by_cases hp : p.1 = k
    · have hs : mapSet (p :: m) k v = (k, v) :: m := by simp [mapSet, hp]
      rw [hs]
      by_cases hj : j = k
      · have hpj : p.1 = j := by rw [hp, hj]
        simp [mapHas, hj, hpj]
      · have hkj : ¬ (k = j) := fun hc => hj hc.symm
        have hpj : ¬ (p.1 = j) := by rw [hp]; exact hkj
        simp [mapHas, hj, hkj, hpj]
    · have hs : mapSet (p :: m) k v = p :: mapSet m k v := by simp [mapSet, hp]
      rw [hs]
      by_cases hpj : p.1 = j <;> simp [mapHas, hpj, ih]

/-! ## Cache validity (C3, C7, C10) -/

theorem isValid_iff (cfg : CacheConfig) (data : CacheData) (now : Int) :
    isValid cfg data now = true ↔
      (data.version = CACHE_VERSION ∧ (cfg.ttl > 0 → now - data.timestamp ≤ cfg.ttl)) := by
  unfold isValid
  by_cases hv : data.version = CACHE_VERSION
  · by_cases ht : cfg.ttl > 0
    · by_cases ha : now - data.timestamp > cfg.ttl
      · simp only [hv, ht, ha]
        simp
        omega
      · simp only [hv, ht, ha]
        simp
        omega
    · simp [hv, ht]
  · simp [hv]

theorem validateAndReturn_eq_some (cfg : CacheConfig) (data : CacheData) (now : Int)
    (items : List BookmarkItem) :
    validateAndReturn cfg data now = some items ↔
      (isValid cfg data now = true ∧ items = data.items) := by
  unfold validateAndReturn
  by_cases hv : isValid cfg data now = true
  · simp [hv, eq_comm]
  · rw [Bool.not_eq_true] at hv
    simp [hv]

theorem validateAndReturn_eq_none (cfg : CacheConfig) (data : CacheData) (now : Int)
    (h : isValid cfg data now = false) : validateAndReturn cfg data now = none := by
  unfold validateAndReturn
  simp [h]

theorem loadStorage_key_absent (cfg : CacheConfig) (st : List (String × CacheData))
    (k : String) (now : Int) (h : mapGet st k = none) :
    loadStorage cfg st k now = (none, st) := by
  unfold loadStorage
  rw [h]

theorem loadStorage_present (cfg : CacheConfig) (st : List (String × CacheData))
    (k : String) (now : Int) (data : CacheData) (h : mapGet st k = some data) :
    loadStorage cfg st k now =
      (match validateAndReturn cfg data now with
       | none => (none, st)
       | some items => (some items, mapSet st k (wrapEntry items now))) := by
  unfold loadStorage
  rw [h]

theorem loadStorage_invalid (cfg : CacheConfig) (st : List (String × CacheData))
    (k : String) (now : Int) (data : CacheData) (h : mapGet st k = some data)
    (hval : validateAndReturn cfg data now = none) :
    loadStorage cfg st k now = (none, st) := by
  rw [loadStorage_present cfg st k now data h, hval]

theorem loadStorage_hit (cfg : CacheConfig) (st : List (String × CacheData))
    (k : String) (now : Int) (data : CacheData) (items : List BookmarkItem)
    (h : mapGet st k = some data)
    (hval : validateAndReturn cfg data now = some items) :
    loadStorage cfg st k now = (some items, mapSet st k (wrapEntry items now)) := by
  rw [loadStorage_present cfg st k now data h, hval]

theorem loadFromMemory_absent (cfg : CacheConfig) (s : CacheState) (k : String)
    (now : Int) (h : mapGet s.cacheMap k = none) :
    loadFromMemory cfg s k now = (none, { s with missCount := s.missCount + 1 }) := by
  unfold loadFromMemory
  rw [h]

theorem loadFromMemory_present (cfg : CacheConfig) (s : CacheState) (k : String)
    (now : Int) (data : CacheData) (h : mapGet s.cacheMap k = some data) :
    loadFromMemory cfg s k now =
      (validateAndReturn cfg data now,
       { s with lruList := k :: s.lruList.erase k, hitCount := s.hitCount + 1 }) := by
  unfold loadFromMemory
  rw [h]

/-- C3: a cache entry's payload is only ever returned when its version equals
`CACHE_VERSION` and, for a positive configured ttl, its age does not exceed
the ttl (both for the durable-backend path and the memory path); an entry
with a mismatched version makes `load` return absent while the raw entry
still sits untouched in the backend; and with `ttl ≤ 0` a version-matching
entry is returned regardless of its age. -/
theorem c3_load_validity_gate :
    (∀ (cfg : CacheConfig) (st : List (String × CacheData)) (k : String) (now : Int),
      ((loadStorage cfg st k now).1.isSome = true →
        ∃ data, mapGet st k = some data ∧
          (loadStorage cfg st k now).1 = some data.items ∧
          data.version = CACHE_VERSION ∧
          (cfg.ttl > 0 → now - data.timestamp ≤ cfg.ttl))) ∧
    (∀ (cfg : CacheConfig) (s : CacheState) (k : String) (now : Int),
      ((loadFromMemory cfg s k now).1.isSome = true →
        ∃ data, mapGet s.cacheMap k = some data ∧
          (loadFromMemory cfg s k now).1 = some data.items ∧
          data.version = CACHE_VERSION ∧
          (cfg.ttl > 0 → now - data.timestamp ≤ cfg.ttl))) ∧
    (∀ (cfg : CacheConfig) (st : List (String × CacheData)) (k : String) (now : Int)
      (data : CacheData),
      mapGet st k = some data → data.version ≠ CACHE_VERSION →
        (loadStorage cfg st k now).1 = none ∧
        mapGet (loadStorage cfg st k now).2 k = some data) ∧
    (∀ (cfg : CacheConfig) (st : List (String × CacheData)) (k : String) (now : Int)
      (data : CacheData),
      cfg.ttl ≤ 0 → mapGet st k = some data → data.version = CACHE_VERSION →
        (loadStorage cfg st k now).1 = some data.items) := by
  refine ⟨?_, ?_, ?_, ?_⟩
  · intro cfg st k now h
    cases hg : mapGet st k with
    | none => rw [loadStorage_key_absent cfg st k now hg] at h; simp at h
    | some data =>
      cases hval : validateAndReturn cfg data now with
      | none => rw [loadStorage_invalid cfg st k now data hg hval] at h; simp at h
      | some items =>
        have hc := (validateAndReturn_eq_some cfg data now items).mp hval
        have hd := (isValid_iff cfg data now).mp hc.1
        rw [loadStorage_hit cfg st k now data items hg hval]
        exact ⟨data, rfl, by rw [hc.2], hd.1, hd.2⟩
  · intro cfg s k now h
    cases hg : mapGet s.cacheMap k with
    | none => rw [loadFromMemory_absent cfg s k now hg] at h; simp at h
    | some data =>
      rw [loadFromMemory_present cfg s k now data hg] at h ⊢
      cases hval : validateAndReturn cfg data now with
      | none => rw [hval] at h; simp at h
      | some items =>
        have hc := (validateAndReturn_eq_some cfg data now items).mp hval
        have hd := (isValid_iff cfg data now).mp hc.1
        exact ⟨data, rfl, by rw [hc.2], hd.1, hd.2⟩
  · intro cfg st k now data hg hv
    have hval : validateAndReturn cfg data now = none := by
      apply validateAndReturn_eq_none
      cases hb : isValid cfg data now with
      | false => rfl
      | true => exact absurd ((isValid_iff cfg data now).mp hb).1 hv
    rw [loadStorage_invalid cfg st k now data hg hval]
    exact ⟨rfl, hg⟩
  · intro cfg st k now data ht hg hv
    have hval : validateAndReturn cfg data now = some data.items :=
      (validateAndReturn_eq_some cfg data now data.items).mpr
        ⟨(isValid_iff cfg data now).mpr ⟨hv, fun hc => absurd hc (by omega)⟩, rfl⟩
    rw [loadStorage_hit cfg st k now data data.items hg hval]

/-- C3 witness: under `ttl = -1` a concrete old entry is still returned; a
concrete version-mismatched entry is absent while remaining in the backend;
and a fresh valid entry's payload is returned. -/
theorem c3_load_validity_gate_witness :
    (loadStorage ⟨100, -1⟩ [("k", ⟨[], 0, CACHE_VERSION, some 1, some 0⟩)] "k" 999999).1
      = some [] ∧
    (loadStorage ⟨100, 50⟩ [("k", ⟨[], 0, "0.9.0", some 1, some 0⟩)] "k" 10).1 = none ∧
    mapGet (loadStorage ⟨100, 50⟩ [("k", ⟨[], 0, "0.9.0", some 1, some 0⟩)] "k" 10).2 "k"
      = some ⟨[], 0, "0.9.0", some 1, some 0⟩ := by
  refine ⟨?_, ?_, ?_⟩
  · exact c3_load_validity_gate.2.2.2 ⟨100, -1⟩
      [("k", ⟨[], 0, CACHE_VERSION, some 1, some 0⟩)] "k" 999999
      ⟨[], 0, CACHE_VERSION, some 1, some 0⟩ (by decide) (by decide) (by decide)
  · exact (c3_load_validity_gate.2.2.1 ⟨100, 50⟩
      [("k", ⟨[], 0, "0.9.0", some 1, some 0⟩)] "k" 10
      ⟨[], 0, "0.9.0", some 1, some 0⟩ (by decide) (by decide)).1
  · exact (c3_load_validity_gate.2.2.1 ⟨100, 50⟩
      [("k", ⟨[], 0, "0.9.0", some 1, some 0⟩)] "k" 10
      ⟨[], 0, "0.9.0", some 1, some 0⟩ (by decide) (by decide)).2

/-- C7 counterexample: a valid stored entry with `accessCount = 1` and
creation timestamp `0` is loaded at time `5`; the claim demands the re-saved
entry carry `accessCount = 2` and timestamp `0`, but the re-saved entry is
`save`'s fresh wrap: `accessCount = 1` and timestamp `5`. -/
theorem c7_counterexample :
    (loadStorage ⟨100, -1⟩ [("k", ⟨[], 0, CACHE_VERSION, some 1, some 0⟩)] "k" 5).1
      = some [] ∧
    mapGet (loadStorage ⟨100, -1⟩ [("k", ⟨[], 0, CACHE_VERSION, some 1, some 0⟩)] "k" 5).2
      "k" = some ⟨[], 5, CACHE_VERSION, some 1, some 5⟩ ∧
    ¬ ((⟨[], 5, CACHE_VERSION, some 1, some 5⟩ : CacheData).accessCount = some (1 + 1) ∧
       (⟨[], 5, CACHE_VERSION, some 1, some 5⟩ : CacheData).timestamp = 0) := by
  refine ⟨by decide, by decide, by decide⟩

/-- C7 (amended): on a successful durable-backend hit the entry is re-saved,
but through `save`'s fresh wrap: the re-saved entry's `lastAccess` is the
load time, its `accessCount` is reset to `1` (the in-place increment performed
on the decoded object is discarded), and its creation timestamp is likewise
reset to the load time rather than preserved. -/
theorem c7_resave_resets_bookkeeping (cfg : CacheConfig)
    (st : List (String × CacheData)) (k : String) (now : Int) (data : CacheData)
    (items : List BookmarkItem) (hg : mapGet st k = some data)
    (hval : validateAndReturn cfg data now = some items) :
    (loadStorage cfg st k now).1 = some items ∧
    mapGet (loadStorage cfg st k now).2 k =
      some ⟨items, now, CACHE_VERSION, some 1, some now⟩ := by
  rw [loadStorage_hit cfg st k now data items hg hval]
  exact ⟨rfl, mapGet_mapSet_self st k (wrapEntry items now)⟩

/-- C7 witness: the amended statement at the counterexample's input. -/
theorem c7_resave_resets_bookkeeping_witness :
    (loadStorage ⟨100, -1⟩ [("k", ⟨[], 0, CACHE_VERSION, some 1, some 0⟩)] "k" 5).1
      = some [] ∧
    mapGet (loadStorage ⟨100, -1⟩ [("k", ⟨[], 0, CACHE_VERSION, some 1, some 0⟩)] "k" 5).2
      "k" = some ⟨[], 5, CACHE_VERSION, some 1, some 5⟩ :=
  c7_resave_resets_bookkeeping ⟨100, -1⟩
    [("k", ⟨[], 0, CACHE_VERSION, some 1, some 0⟩)] "k" 5
    ⟨[], 0, CACHE_VERSION, some 1, some 0⟩ [] (by decide) (by decide)

/-- C10: a memory-backend `load` of a present-but-invalid entry returns
absent, yet counts as a hit (not a miss), promotes the stale node to the head
of the LRU list, and leaves the stale entry in the map occupying capacity;
consequently `getStats().hitRate` counts the access as a hit. -/
theorem c10_stale_memory_hit (cfg : CacheConfig) (s : CacheState) (k : String)
    (now : Int) (data : CacheData) (hg : mapGet s.cacheMap k = some data)
    (hv : isValid cfg data now = false) :
    (loadFromMemory cfg s k now).1 = none ∧
    (loadFromMemory cfg s k now).2.hitCount = s.hitCount + 1 ∧
    (loadFromMemory cfg s k now).2.missCount = s.missCount ∧
    (loadFromMemory cfg s k now).2.lruList.head? = some k ∧
    (loadFromMemory cfg s k now).2.cacheMap = s.cacheMap ∧
    (loadFromMemory cfg s k now).2.currentSize = s.currentSize ∧
    calculateHitRate (loadFromMemory cfg s k now).2 =
      ((s.hitCount : ℚ) + 1) / ((s.hitCount : ℚ) + 1 + (s.missCount : ℚ)) := by
  rw [loadFromMemory_present cfg s k now data hg,
    validateAndReturn_eq_none cfg data now hv]
  refine ⟨rfl, rfl, rfl, rfl, rfl, rfl, ?_⟩
  unfold calculateHitRate
  have hpos : s.hitCount + 1 + s.missCount > 0 := by omega
  simp only [hpos, if_pos]
  push_cast
  ring_nf

/-- C10 witness: a concrete version-stale entry. -/
theorem c10_stale_memory_hit_witness :
    (loadFromMemory ⟨100, -1⟩ ⟨["k"], [("k", ⟨[], 0, "0.9.0", some 1, some 0⟩)], 1, 3, 1⟩
      "k" 50).1 = none ∧
    (loadFromMemory ⟨100, -1⟩ ⟨["k"], [("k", ⟨[], 0, "0.9.0", some 1, some 0⟩)], 1, 3, 1⟩
      "k" 50).2.hitCount = 4 ∧
    (loadFromMemory ⟨100, -1⟩ ⟨["k"], [("k", ⟨[], 0, "0.9.0", some 1, some 0⟩)], 1, 3, 1⟩
      "k" 50).2.lruList.head? = some "k" ∧
    calculateHitRate
      (loadFromMemory ⟨100, -1⟩ ⟨["k"], [("k", ⟨[], 0, "0.9.0", some 1, some 0⟩)], 1, 3, 1⟩
        "k" 50).2 = (4 : ℚ) / 5 := by
  have h := c10_stale_memory_hit ⟨100, -1⟩
    ⟨["k"], [("k", ⟨[], 0, "0.9.0", some 1, some 0⟩)], 1, 3, 1⟩ "k" 50
    ⟨[], 0, "0.9.0", some 1, some 0⟩ (by decide) (by decide)
  refine ⟨h.1, h.2.1, h.2.2.2.1, ?_⟩
  rw [h.2.2.2.2.2.2]
  norm_num

/-! ## Update and tag queries (C6, C9) -/

/-- C6: `update(id, item)` on a present id swaps what `get(id)` returns and
touches only `itemMap` and the tag/url indexes — `parentMap`, `pathMap` and
`childrenIndex` are untouched; `update` on an absent id changes nothing. -/
theorem c6_update_content_only :
    (∀ (idx : BookmarkIndex) (id : String) (item : BookmarkItem),
      mapGet idx.itemMap id = none → idx.update id item = idx) ∧
    (∀ (idx : BookmarkIndex) (id : String) (item old : BookmarkItem),
      mapGet idx.itemMap id = some old →
        (idx.update id item).get id = some item ∧
        (idx.update id item).getParentId id = idx.getParentId id ∧
        (idx.update id item).getPath id = idx.getPath id ∧
        (idx.update id item).parentMap = idx.parentMap ∧
        (idx.update id item).pathMap = idx.pathMap ∧
        (idx.update id item).childrenIndex = idx.childrenIndex) := by
  constructor
  · intro idx id item h
    unfold BookmarkIndex.update
    rw [h]
  · intro idx id item old h
    unfold BookmarkIndex.update
    rw [h]
    refine ⟨?_, rfl, rfl, rfl, rfl, rfl⟩
    unfold BookmarkIndex.get
    exact mapGet_mapSet_self idx.itemMap id item

/-- C6 witness: a concrete one-item index. -/
theorem c6_update_content_only_witness :
    ((⟨[("a", .leaf "a" "t" "u" none)], [("a", "r")], [("a", ["r", "a"])], [], [], []⟩ :
        BookmarkIndex).update "a" (.leaf "a" "t2" "u2" none)).get "a"
      = some (.leaf "a" "t2" "u2" none) ∧
    ((⟨[("a", .leaf "a" "t" "u" none)], [("a", "r")], [("a", ["r", "a"])], [], [], []⟩ :
        BookmarkIndex).update "a" (.leaf "a" "t2" "u2" none)).getParentId "a" = some "r" ∧
    ((⟨[("a", .leaf "a" "t" "u" none)], [("a", "r")], [("a", ["r", "a"])], [], [], []⟩ :
        BookmarkIndex).update "a" (.leaf "a" "t2" "u2" none)).getPath "a" = ["r", "a"] ∧
    (⟨[], [], [], [], [], []⟩ : BookmarkIndex).update "z" (.leaf "z" "t" "u" none)
      = ⟨[], [], [], [], [], []⟩ := by
  have h := (c6_update_content_only.2
    ⟨[("a", .leaf "a" "t" "u" none)], [("a", "r")], [("a", ["r", "a"])], [], [], []⟩
    "a" (.leaf "a" "t2" "u2" none) (.leaf "a" "t" "u" none) (by decide))
  have h0 := c6_update_content_only.1 ⟨[], [], [], [], [], []⟩ "z"
    (.leaf "z" "t" "u" none) (by decide)
  exact ⟨h.1, by rw [h.2.1]; decide, by rw [h.2.2.1]; decide, h0⟩

/-- C9: with AND semantics, every item of `findByTags([a, b])` also belongs
to `findByTag(a)` and to `findByTag(b)`, and when either supplied tag has no
entry at all in the tag index the result is empty. -/
theorem c9_findByTags_and_semantics :
    (∀ (idx : BookmarkIndex) (a b : String) (x : BookmarkItem),
      x ∈ idx.findByTags [a, b] → x ∈ idx.findByTag a ∧ x ∈ idx.findByTag b) ∧
    (∀ (idx : BookmarkIndex) (a b : String),
      mapGet idx.tagIndex (jsToLower a) = none → idx.findByTags [a, b] = []) ∧
    (∀ (idx : BookmarkIndex) (a b : String),
      mapGet idx.tagIndex (jsToLower b) = none → idx.findByTags [a, b] = []) := by
  refine ⟨?_, ?_, ?_⟩
  · intro idx a b x hx
    unfold BookmarkIndex.findByTags at hx
    cases ha : mapGet idx.tagIndex (jsToLower a) with
    | none =>
      simp [List.filterMap, ha] at hx
      cases hb : mapGet idx.tagIndex (jsToLower b) with
      | none => rw [hb] at hx; simp at hx
      | some B => rw [hb] at hx; simp at hx
    | some A =>
      cases hb : mapGet idx.tagIndex (jsToLower b) with
      | none => simp [List.filterMap, ha, hb] at hx
      | some B =>
        simp only [List.filterMap, ha, hb, List.isEmpty_cons, if_false] at hx
        split at hx
        · simp at hx
        split at hx
        · simp at hx
        rw [List.mem_filterMap] at hx
        obtain ⟨id, hid, hget⟩ := hx
        rw [List.mem_filter] at hid
        obtain ⟨hidA, hcond⟩ := hid
        have hidB : id ∈ B := by
          simp only [List.all_cons, List.all_nil, Bool.and_true] at hcond
          simpa using hcond
        constructor
        · unfold BookmarkIndex.findByTag
          rw [ha, List.mem_filterMap]
          exact ⟨id, hidA, hget⟩
        · unfold BookmarkIndex.findByTag
          rw [hb, List.mem_filterMap]
          exact ⟨id, hidB, hget⟩
  · intro idx a b ha
    unfold BookmarkIndex.findByTags
    cases hb : mapGet idx.tagIndex (jsToLower b) with
    | none => simp [List.filterMap, ha, hb]
    | some B => simp [List.filterMap, ha, hb]
  · intro idx a b hb
    unfold BookmarkIndex.findByTags
    cases ha : mapGet idx.tagIndex (jsToLower a) with
    | none => simp [List.filterMap, ha, hb]
    | some A => simp [List.filterMap, ha, hb]

/-- C9 witness: a concrete index where tags `x` and `y` intersect in one id,
and a lookup with an unknown tag is empty. -/
theorem c9_findByTags_and_semantics_witness :
    (.leaf "2" "t2" "u2" (some ["x", "y"]) : BookmarkItem) ∈
      (⟨[("1", .leaf "1" "t1" "u1" (some ["x"])),
         ("2", .leaf "2" "t2" "u2" (some ["x", "y"]))],
        [], [], [("x", ["1", "2"]), ("y", ["2"])], [], []⟩ :
        BookmarkIndex).findByTag "x" ∧
    (.leaf "2" "t2" "u2" (some ["x", "y"]) : BookmarkItem) ∈
      (⟨[("1", .leaf "1" "t1" "u1" (some ["x"])),
         ("2", .leaf "2" "t2" "u2" (some ["x", "y"]))],
        [], [], [("x", ["1", "2"]), ("y", ["2"])], [], []⟩ :
        BookmarkIndex).findByTag "y" ∧
    (⟨[("1", .leaf "1" "t1" "u1" (some ["x"])),
       ("2", .leaf "2" "t2" "u2" (some ["x", "y"]))],
      [], [], [("x", ["1", "2"]), ("y", ["2"])], [], []⟩ :
      BookmarkIndex).findByTags ["z", "x"] = [] := by
  have h := c9_findByTags_and_semantics.1
    ⟨[("1", .leaf "1" "t1" "u1" (some ["x"])),
      ("2", .leaf "2" "t2" "u2" (some ["x", "y"]))],
      [], [], [("x", ["1", "2"]), ("y", ["2"])], [], []⟩
    "x" "y" (.leaf "2" "t2" "u2" (some ["x", "y"])) (by decide)
  have h2 := c9_findByTags_and_semantics.2.1
    ⟨[("1", .leaf "1" "t1" "u1" (some ["x"])),
      ("2", .leaf "2" "t2" "u2" (some ["x", "y"]))],
      [], [], [("x", ["1", "2"]), ("y", ["2"])], [], []⟩
    "z" "x" (by decide)
  exact ⟨h.1, h.2, h2⟩

/-! ## Fuzzy match (C5) -/

theorem fuzzyWalk_success_iff (t q : List Char) (m c mc : Nat) :
    (fuzzyWalk q t m c mc).2.2 = true ↔ q.Sublist t := by
  induction t generalizing q m c mc with
  | nil =>
    cases q with
    | nil => simp [fuzzyWalk]
    | cons qc qr => simp [fuzzyWalk]
  | cons tc tr ih =>
    cases q with
    | nil => simp [fuzzyWalk, List.nil_sublist]
    | cons qc qr =>
      have hstep : fuzzyWalk (qc :: qr) (tc :: tr) m c mc =
          if qc = tc then fuzzyWalk qr tr (m + 1) (c + 1) (max mc (c + 1))
          else fuzzyWalk (qc :: qr) tr m 0 mc := rfl
      by_cases hqc : qc = tc
      · rw [hstep, if_pos hqc, ih]
        subst hqc
        exact (List.cons_sublist_cons).symm
      · rw [hstep, if_neg hqc, ih]
        constructor
        · intro h
          exact h.cons tc
        · intro h
          cases h with
          | cons _ h2 => exact h2
          | cons₂ _ h2 => exact absurd rfl hqc

theorem fuzzyWalk_matched_of_success (t q : List Char) (m c mc : Nat)
    (h : (fuzzyWalk q t m c mc).2.2 = true) :
    (fuzzyWalk q t m c mc).1 = m + q.length := by
  induction t generalizing q m c mc with
  | nil =>
    cases q with
    | nil => simp [fuzzyWalk]
    | cons qc qr => simp [fuzzyWalk] at h
  | cons tc tr ih =>
    cases q with
    | nil => simp [fuzzyWalk]
    | cons qc qr =>
      have hstep : fuzzyWalk (qc :: qr) (tc :: tr) m c mc =
          if qc = tc then fuzzyWalk qr tr (m + 1) (c + 1) (max mc (c + 1))
          else fuzzyWalk (qc :: qr) tr m 0 mc := rfl
      rw [hstep] at h ⊢
      by_cases hqc : qc = tc
      · rw [if_pos hqc] at h ⊢
        rw [ih _ _ _ _ h, List.length_cons]
        omega
      · rw [if_neg hqc] at h ⊢
        exact ih _ _ _ _ h

/-- C5: for a non-empty query, the fuzzy score is `0` exactly when the greedy
pointer walk fails — which happens precisely when the query is not a
subsequence of the text — and otherwise equals
`0.5·(matched/|q|) + 0.3·(maxRun/|q|) + 0.2·min(1, |q|/|t|)` with the walk's
counters (the walk then matched all `|q|` characters, so the score is
positive); in particular `"gh"` scores `43/60 ≠ 0` against `"github"` and
`"xz"` scores `0`. -/
theorem c5_fuzzy_score (q t : String) (hq : q ≠ "") :
    (¬ q.toList.Sublist t.toList → fuzzyMatch q t = 0) ∧
    (q.toList.Sublist t.toList →
      fuzzyMatch q t =
        ((fuzzyWalk q.toList t.toList 0 0 0).1 : ℚ) / q.length * (1 / 2)
          + ((fuzzyWalk q.toList t.toList 0 0 0).2.1 : ℚ) / q.length * (3 / 10)
          + min 1 ((q.length : ℚ) / t.length) * (1 / 5) ∧
      (fuzzyWalk q.toList t.toList 0 0 0).1 = q.length ∧
      fuzzyMatch q t ≠ 0) ∧
    fuzzyMatch "gh" "github" = 43 / 60 ∧ fuzzyMatch "xz" "github" = 0 := by
  have hqlist : q.toList ≠ [] := by
    intro hc
    apply hq
    cases q with
    | mk d =>
      have : d = [] := hc
      rw [this]
  have hqlen : q.length ≠ 0 := by
    intro hc
    apply hqlist
    have : q.toList.length = 0 := hc
    exact List.length_eq_zero.mp this
  refine ⟨?_, ?_, ?_, ?_⟩
  · intro hns
    unfold fuzzyMatch
    by_cases ht : t = ""
    · simp [ht]
    · rw [if_neg (by simp [ht, hq])]
      have hfail : (fuzzyWalk q.data t.data 0 0 0).2.2 = false := by
        cases hb : (fuzzyWalk q.toList t.toList 0 0 0).2.2
        · exact hb
        · exact absurd ((fuzzyWalk_success_iff t.toList q.toList 0 0 0).mp hb) hns
      simp [hfail]
  · intro hs
    have htlist : t.toList ≠ [] := by
      intro hc
      rw [hc] at hs
      exact hqlist (List.sublist_nil.mp hs)
    have ht : t ≠ "" := by
      intro hc
      apply htlist
      rw [hc]
      rfl
    have hsucc : (fuzzyWalk q.toList t.toList 0 0 0).2.2 = true :=
      (fuzzyWalk_success_iff t.toList q.toList 0 0 0).mpr hs
    have hmatched : (fuzzyWalk q.toList t.toList 0 0 0).1 = q.length := by
      have hm := fuzzyWalk_matched_of_success t.toList q.toList 0 0 0 hsucc
      rw [hm]
      have : q.toList.length = q.length := rfl
      omega
    have heq : fuzzyMatch q t =
        ((fuzzyWalk q.toList t.toList 0 0 0).1 : ℚ) / q.length * (1 / 2)
          + ((fuzzyWalk q.toList t.toList 0 0 0).2.1 : ℚ) / q.length * (3 / 10)
          + min 1 ((q.length : ℚ) / t.length) * (1 / 5) := by
      unfold fuzzyMatch
      rw [if_neg (by simp [ht, hq])]
      have hsucc2 : (fuzzyWalk q.data t.data 0 0 0).2.2 = true := hsucc
      simp [hsucc2]
    refine ⟨heq, hmatched, ?_⟩
    rw [heq, hmatched]
    have hq0 : (0 : ℚ) < q.length := by
      have : 0 < q.length := Nat.pos_of_ne_zero hqlen
      exact_mod_cast this
    have h1 : ((q.length : ℚ)) / q.length * (1 / 2) = 1 / 2 := by
      rw [div_self (ne_of_gt hq0)]
      norm_num
    rw [h1]
    have h2 : (0 : ℚ) ≤
        ((fuzzyWalk q.toList t.toList 0 0 0).2.1 : ℚ) / q.length * (3 / 10) := by
      apply mul_nonneg
      · exact div_nonneg (Nat.cast_nonneg _) (le_of_lt hq0)
      · norm_num
    have h3 : (0 : ℚ) ≤ min 1 ((q.length : ℚ) / t.length) * (1 / 5) := by
      apply mul_nonneg
      · exact le_min (by norm_num) (div_nonneg (le_of_lt hq0) (Nat.cast_nonneg _))
      · norm_num
    intro hc
    linarith [h2, h3]
  · have hw : fuzzyWalk "gh".toList "github".toList 0 0 0 = (2, 1, true) := rfl
    have hl1 : ("gh" : String).length = 2 := rfl
    have hl2 : ("github" : String).length = 6 := rfl
    unfold fuzzyMatch
    rw [if_neg (by decide)]
    simp only [hw, hl1, hl2]
    norm_num [min_def]
  · have hw : fuzzyWalk ['x', 'z'] ['g', 'i', 't', 'h', 'u', 'b'] 0 0 0
        = (0, 0, false) := rfl
    unfold fuzzyMatch
    rw [if_neg (by decide)]
    simp [hw]

/-- C5 witness: the theorem applied at the spec's own scenario C inputs. -/
theorem c5_fuzzy_score_witness :
    fuzzyMatch "xz" "github" = 0 ∧ fuzzyMatch "gh" "github" ≠ 0 := by
  have h := c5_fuzzy_score "xz" "github" (by decide)
  have h2 := c5_fuzzy_score "gh" "github" (by decide)
  exact ⟨h.1 (by decide), (h2.2.1 (by decide)).2.2⟩

/-! ## Event emitter (C8) -/

theorem insertDesc_perm (w : Wrapper) (l : List Wrapper) :
    (insertDesc w l).Perm (w :: l) := by
  induction l with
  | nil => exact List.Perm.refl _
  | cons x xs ih =>
    unfold insertDesc
    by_cases hp : x.priority > w.priority
    · rw [if_pos hp]
      exact (ih.cons x).trans (List.Perm.swap w x xs)
    · rw [if_neg hp]

theorem sortDesc_perm (l : List Wrapper) : (sortDesc l).Perm l := by
  induction l with
  | nil => exact List.Perm.refl _
  | cons x xs ih =>
    unfold sortDesc
    exact (insertDesc_perm x (sortDesc xs)).trans (ih.cons x)

theorem runHandlers_log (ws : List Wrapper) :
    ∀ (live : List Wrapper) (log : List (Nat × Bool)),
      (runHandlers live ws log).2 = log ++ ws.map (fun w => (w.hid, w.throws)) := by
  induction ws with
  | nil => intro live log; simp [runHandlers]
  | cons x ws ih =>
    intro live log
    unfold runHandlers
    rw [ih]
    simp

theorem runHandlers_subset (ws : List Wrapper) :
    ∀ (live : List Wrapper) (log : List (Nat × Bool)) (x : Wrapper),
      x ∈ (runHandlers live ws log).1 → x ∈ live := by
  induction ws with
  | nil => intro live log x hx; exact hx
  | cons w ws ih =>
    intro live log x hx
    unfold runHandlers at hx
    by_cases hc : (!w.throws && w.once) = true
    · rw [if_pos hc] at hx
      exact List.erase_subset _ _ (ih _ _ _ hx)
    · rw [if_neg hc] at hx
      exact ih _ _ _ hx

theorem runHandlers_nodup (ws : List Wrapper) :
    ∀ (live : List Wrapper) (log : List (Nat × Bool)),
      live.Nodup → (runHandlers live ws log).1.Nodup := by
  induction ws with
  | nil => intro live log h; exact h
  | cons w ws ih =>
    intro live log h
    unfold runHandlers
    by_cases hc : (!w.throws && w.once) = true
    · rw [if_pos hc]
      exact ih _ _ (h.erase w)
    · rw [if_neg hc]
      exact ih _ _ h

theorem runHandlers_removes (ws : List Wrapper) :
    ∀ (live : List Wrapper) (log : List (Nat × Bool)) (w : Wrapper),
      live.Nodup → w ∈ ws → w.once = true → w.throws = false →
        w ∉ (runHandlers live ws log).1 := by
  induction ws with
  | nil => intro live log w _ hw; cases hw
  | cons x ws ih =>
    intro live log w hn hw ho ht
    unfold runHandlers
    by_cases hxw : x = w
    · subst hxw
      rw [if_pos (by rw [ho, ht]; rfl)]
      intro hc
      have hmem := runHandlers_subset ws _ _ _ hc
      rw [hn.mem_erase_iff] at hmem
      exact hmem.1 rfl
    · have hw2 : w ∈ ws := by
        cases hw with
        | head => exact absurd rfl hxw
        | tail _ h => exact h
      by_cases hc : (!x.throws && x.once) = true
      · rw [if_pos hc]
        exact ih _ _ _ (hn.erase x) hw2 ho ht
      · rw [if_neg hc]
        exact ih _ _ _ hn hw2 ho ht

theorem emitOnce_log (hs : List Wrapper) :
    (emitOnce hs).2 = (sortDesc hs).map (fun w => (w.hid, w.throws)) := by
  unfold emitOnce
  rw [runHandlers_log]
  simp

theorem emitOnce_subset (hs : List Wrapper) (x : Wrapper)
    (hx : x ∈ (emitOnce hs).1) : x ∈ hs :=
  runHandlers_subset (sortDesc hs) hs [] x hx

theorem emitOnce_count (hs : List Wrapper) (h : Nat) :
    (emitOnce hs).2.countP (fun p => p.1 == h) = hs.countP (fun w => w.hid == h) := by
  rw [emitOnce_log, List.countP_map]
  exact (sortDesc_perm hs).countP_eq _

theorem countP_hid_eq_one (hs : List Wrapper) (w : Wrapper) (hn : hs.Nodup)
    (hw : w ∈ hs) (hinj : ∀ w' ∈ hs, w'.hid = w.hid → w' = w) :
    hs.countP (fun x => x.hid == w.hid) = 1 := by
  induction hs with
  | nil => cases hw
  | cons x xs ih =>
    rw [List.countP_cons]
    by_cases hxw : x = w
    · subst hxw
      have hz : xs.countP (fun y => y.hid == x.hid) = 0 := by
        rw [List.countP_eq_zero]
        intro a ha hc
        have : a = x := hinj a (List.mem_cons_of_mem x ha) (by simpa using hc)
        subst this
        exact (List.nodup_cons.mp hn).1 ha
      rw [hz]
      simp
    · have hxh : (x.hid == w.hid) = false := by
        cases hb : x.hid == w.hid
        · rfl
        · exact absurd (hinj x (List.mem_cons_self x xs) (by simpa using hb)) hxw
      rw [hxh]
      have hw2 : w ∈ xs := by
        cases hw with
        | head => exact absurd rfl hxw
        | tail _ hh => exact hh
      rw [ih (List.nodup_cons.mp hn).2 hw2
        (fun a ha => hinj a (List.mem_cons_of_mem x ha))]
      simp

theorem emitSeq_count_zero (n : Nat) :
    ∀ (hs : List Wrapper) (h : Nat), (∀ w ∈ hs, (w.hid == h) = false) →
      (emitSeq hs n).2.countP (fun p => p.1 == h) = 0 := by
  induction n with
  | zero => intro hs h hall; simp [emitSeq]
  | succ n ih =>
    intro hs h hall
    unfold emitSeq
    rw [List.countP_append, emitOnce_count]
    rw [List.countP_eq_zero.mpr (by intro a ha; simp [hall a ha])]
    rw [ih (emitOnce hs).1 h (fun w hw => hall w (emitOnce_subset hs w hw))]

/-- C8 counterexample: a `once` handler whose invocation throws is not
unregistered (the `handlers.delete(wrapper)` lives inside the `try`, after
`handler(data)`), so it is still registered after the first emit and is
invoked again by a second one — it is invoked twice across a sequence of two
emits, refuting "invoked at most once across any sequence of emits". -/
theorem c8_counterexample :
    (emitOnce [⟨0, true, true, 0⟩]).1 = [⟨0, true, true, 0⟩] ∧
    (emitSeq [⟨0, true, true, 0⟩] 2).2 = [(0, true), (0, true)] ∧
    (emitSeq [⟨0, true, true, 0⟩] 2).2.countP (fun p => p.1 == 0) = 2 := by
  refine ⟨rfl, rfl, rfl⟩

/-- C8 (amended): handler exceptions are caught per-handler — during one
`emit` every subscribed handler is invoked (appears in the invocation log)
no matter which handlers throw, and `emit` itself returns normally; a `once`
handler is unregistered after its first invocation that completes without
throwing, so a non-throwing `once` handler is invoked at most once across any
sequence of emits (a throwing `once` handler stays registered). -/
theorem c8_emit_isolation_and_once :
    (∀ (hs : List Wrapper) (w : Wrapper), w ∈ hs →
      (w.hid, w.throws) ∈ (emitOnce hs).2) ∧
    (∀ (hs : List Wrapper) (w : Wrapper), hs.Nodup → w ∈ hs →
      w.once = true → w.throws = false → w ∉ (emitOnce hs).1) ∧
    (∀ (hs : List Wrapper) (w : Wrapper) (n : Nat), hs.Nodup →
      (∀ w' ∈ hs, w'.hid = w.hid → w' = w) → w.once = true → w.throws = false →
      (emitSeq hs n).2.countP (fun p => p.1 == w.hid) ≤ 1) := by
  refine ⟨?_, ?_, ?_⟩
  · intro hs w hw
    rw [emitOnce_log, List.mem_map]
    exact ⟨w, (sortDesc_perm hs).mem_iff.mpr hw, rfl⟩
  · intro hs w hn hw ho ht
    exact runHandlers_removes (sortDesc hs) hs [] w hn
      ((sortDesc_perm hs).mem_iff.mpr hw) ho ht
  · intro hs w n hn hinj ho ht
    by_cases hw : w ∈ hs
    · cases n with
      | zero => simp [emitSeq]
      | succ n =>
        unfold emitSeq
        rw [List.countP_append, emitOnce_count, countP_hid_eq_one hs w hn hw hinj]
        have hz : (emitSeq (emitOnce hs).1 n).2.countP (fun p => p.1 == w.hid) = 0 := by
          apply emitSeq_count_zero
          intro w' hw'
          cases hb : w'.hid == w.hid
          · rfl
          · have hww : w' = w :=
              hinj w' (emitOnce_subset hs w' hw') (by simpa using hb)
            subst hww
            exact absurd hw'
              (runHandlers_removes (sortDesc hs) hs [] w' hn
                ((sortDesc_perm hs).mem_iff.mpr hw) ho ht)
        rw [hz]
    · have hz : (emitSeq hs n).2.countP (fun p => p.1 == w.hid) = 0 := by
        apply emitSeq_count_zero
        intro w' hw'
        cases hb : w'.hid == w.hid
        · rfl
        · exact absurd (hinj w' hw' (by simpa using hb) ▸ hw') hw
      rw [hz]
      omega

/-- C8 witness: a two-handler set where the higher-priority handler throws;
both handlers are invoked, and the non-throwing `once` handler is gone
afterwards and is invoked exactly once over three emits. -/
theorem c8_emit_isolation_and_once_witness :
    ((⟨0, true, false, 0⟩ : Wrapper).hid, false) ∈
      (emitOnce [⟨0, true, false, 0⟩, ⟨1, false, true, 5⟩]).2 ∧
    ((⟨1, false, true, 5⟩ : Wrapper).hid, true) ∈
      (emitOnce [⟨0, true, false, 0⟩, ⟨1, false, true, 5⟩]).2 ∧
    (⟨0, true, false, 0⟩ : Wrapper) ∉
      (emitOnce [⟨0, true, false, 0⟩, ⟨1, false, true, 5⟩]).1 ∧
    (emitSeq [⟨0, true, false, 0⟩, ⟨1, false, true, 5⟩] 3).2.countP
      (fun p => p.1 == 0) ≤ 1 := by
  refine ⟨?_, ?_, ?_, ?_⟩
  · exact c8_emit_isolation_and_once.1 _ ⟨0, true, false, 0⟩ (by decide)
  · exact c8_emit_isolation_and_once.1 _ ⟨1, false, true, 5⟩ (by decide)
  · exact c8_emit_isolation_and_once.2.1 _ ⟨0, true, false, 0⟩ (by decide) (by decide)
      rfl rfl
  · exact c8_emit_isolation_and_once.2.2 _ ⟨0, true, false, 0⟩ 3 (by decide)
      (by decide) rfl rfl

/-! ## LRU cache invariants (C2) -/

theorem mapHas_iff_mem_keys {α : Type} (m : List (String × α)) (k : String) :
    mapHas m k = true ↔ k ∈ m.map Prod.fst := by
  induction m with
  | nil => simp [mapHas]
  | cons p m ih =>
    simp only [mapHas, List.map_cons, List.mem_cons, Bool.or_eq_true,
      decide_eq_true_eq, ih]
    constructor
    · rintro (h | h)
      · exact Or.inl h.symm
      · exact Or.inr h
    · rintro (h | h)
      · exact Or.inl h.symm
      · exact Or.inr h

theorem mapDelete_of_not_has {α : Type} (m : List (String × α)) (k : String)
    (h : mapHas m k = false) : mapDelete m k = m := by
  induction m with
  | nil => rfl
  | cons p m ih =>
    simp only [mapHas, Bool.or_eq_false_iff] at h
    have hp : ¬ (p.1 = k) := by simpa using h.1
    rw [show mapDelete (p :: m) k = p :: mapDelete m k by simp [mapDelete, hp]]
    rw [ih h.2]

theorem mapDelete_sublist {α : Type} (m : List (String × α)) (k : String) :
    (mapDelete m k).Sublist m := by
  induction m with
  | nil => exact List.Sublist.refl _
  | cons p m ih =>
    by_cases hp : p.1 = k
    · rw [show mapDelete (p :: m) k = mapDelete m k by simp [mapDelete, hp]]
      exact ih.cons p
    · rw [show mapDelete (p :: m) k = p :: mapDelete m k by simp [mapDelete, hp]]
      exact ih.cons₂ p

theorem mapHas_mapDelete {α : Type} (m : List (String × α)) (k j : String) :
    mapHas (mapDelete m k) j = if j = k then false else mapHas m j := by
  induction m with
  | nil => simp [mapDelete, mapHas]
  | cons p m ih =>
    by_cases hp : p.1 = k
    · rw [show mapDelete (p :: m) k = mapDelete m k by simp [mapDelete, hp]]
      rw [ih]
      by_cases hj : j = k
      · simp [hj]
      · have hpj : ¬ (p.1 = j) := by rw [hp]; exact fun hc => hj hc.symm
        simp [hj, mapHas, hpj]
    · rw [show mapDelete (p :: m) k = p :: mapDelete m k by simp [mapDelete, hp]]
      by_cases hj : j = k
      · subst hj
        simp only [mapHas, ih]
        simp [hp]
      · by_cases hpj : p.1 = j <;> simp [mapHas, hpj, ih, hj]

theorem length_mapDelete_of_has {α : Type} (m : List (String × α)) (k : String)
    (hn : (m.map Prod.fst).Nodup) (h : mapHas m k = true) :
    (mapDelete m k).length + 1 = m.length := by
  induction m with
  | nil => simp [mapHas] at h
  | cons p m ih =>
    rw [List.map_cons, List.nodup_cons] at hn
    by_cases hp : p.1 = k
    · rw [show mapDelete (p :: m) k = mapDelete m k by simp [mapDelete, hp]]
      have hnk : mapHas m k = false := by
        cases hb : mapHas m k
        · rfl
        · exact absurd (hp ▸ (mapHas_iff_mem_keys m k).mp hb) hn.1
      rw [mapDelete_of_not_has m k hnk]
      simp
    · rw [show mapDelete (p :: m) k = p :: mapDelete m k by simp [mapDelete, hp]]
      have hm : mapHas m k = true := by
        simp only [mapHas, Bool.or_eq_true, decide_eq_true_eq] at h
        cases h with
        | inl hc => exact absurd hc hp
        | inr hc => exact hc
      simp only [List.length_cons]
      rw [← ih hn.2 hm]

theorem mapSet_keys_of_has {α : Type} (m : List (String × α)) (k : String) (v : α)
    (h : mapHas m k = true) : (mapSet m k v).map Prod.fst = m.map Prod.fst := by
  induction m with
  | nil => simp [mapHas] at h
  | cons p m ih =>
    by_cases hp : p.1 = k
    · rw [show mapSet (p :: m) k v = (k, v) :: m by simp [mapSet, hp]]
      simp [hp]
    · rw [show mapSet (p :: m) k v = p :: mapSet m k v by simp [mapSet, hp]]
      have hm : mapHas m k = true := by
        simp only [mapHas, Bool.or_eq_true, decide_eq_true_eq] at h
        cases h with
        | inl hc => exact absurd hc hp
        | inr hc => exact hc
      simp [ih hm]

theorem mapSet_length_of_has {α : Type} (m : List (String × α)) (k : String) (v : α)
    (h : mapHas m k = true) : (mapSet m k v).length = m.length := by
  have := congrArg List.length (mapSet_keys_of_has m k v h)
  simpa using this

theorem mem_dropLast_iff (l : List String) (x : String) (h : l ≠ [])
    (hn : l.Nodup) : x ∈ l.dropLast ↔ (x ∈ l ∧ x ≠ l.getLast h) := by
  have hdecomp : l.dropLast ++ [l.getLast h] = l := List.dropLast_append_getLast h
  have hn2 : (l.dropLast ++ [l.getLast h]).Nodup := by rw [hdecomp]; exact hn
  rw [List.nodup_append] at hn2
  constructor
  · intro hx
    constructor
    · rw [← hdecomp]
      exact List.mem_append_left _ hx
    · intro hc
      exact hn2.2.2 hx (by simp [hc])
  · intro ⟨hx, hne⟩
    rw [← hdecomp] at hx
    cases List.mem_append.mp hx with
    | inl hh => exact hh
    | inr hh => exact absurd (by simpa using hh) hne

theorem mapHas_of_mem {α : Type} {m : List (String × α)} {p : String × α}
    (hp : p ∈ m) : mapHas m p.1 = true :=
  (mapHas_iff_mem_keys m p.1).mpr (List.mem_map_of_mem Prod.fst hp)

theorem cacheInv_mem_iff (cfg : CacheConfig) (s : CacheState) (h : CacheInv cfg s)
    (k : String) : k ∈ s.lruList ↔ mapHas s.cacheMap k = true := by
  obtain ⟨_, _, _, h4a, h4b, _, _⟩ := h
  constructor
  · exact h4a k
  · intro hh
    obtain ⟨p, hp, hpk⟩ := List.mem_map.mp ((mapHas_iff_mem_keys _ _).mp hh)
    exact hpk ▸ h4b p hp

theorem cacheInv_of_parts (cfg : CacheConfig) (s : CacheState)
    (h1 : s.currentSize = s.cacheMap.length)
    (h2 : (s.cacheMap.map Prod.fst).Nodup)
    (h3 : s.lruList.Nodup)
    (h4 : ∀ k, k ∈ s.lruList ↔ mapHas s.cacheMap k = true)
    (h5 : s.lruList.length = s.cacheMap.length)
    (h6 : s.currentSize ≤ cfg.maxSize) : CacheInv cfg s :=
  ⟨h1, h2, h3, fun k hk => (h4 k).mp hk,
   fun p hp => (h4 p.1).mpr (mapHas_of_mem hp), h5, h6⟩

theorem setInMemory_present (cfg : CacheConfig) (s : CacheState) (k : String)
    (d v : CacheData) (hg : mapGet s.cacheMap k = some v) :
    setInMemory cfg s k d =
      { s with cacheMap := mapSet s.cacheMap k d
               lruList := k :: s.lruList.erase k } := by
  unfold setInMemory
  rw [hg]

theorem setInMemory_fresh (cfg : CacheConfig) (s : CacheState) (k : String)
    (d : CacheData) (hg : mapGet s.cacheMap k = none) :
    setInMemory cfg s k d =
      (if s.currentSize + 1 > cfg.maxSize then
        evictLRU
          { s with cacheMap := mapSet s.cacheMap k d
                   lruList := k :: s.lruList
                   currentSize := s.currentSize + 1 }
       else
        { s with cacheMap := mapSet s.cacheMap k d
                 lruList := k :: s.lruList
                 currentSize := s.currentSize + 1 }) := by
  unfold setInMemory
  rw [hg]

theorem evictLRU_nonempty (s : CacheState) (h : s.lruList ≠ []) :
    evictLRU s =
      { s with lruList := s.lruList.dropLast
               cacheMap := mapDelete s.cacheMap (s.lruList.getLast h)
               currentSize := s.currentSize - 1 } := by
  unfold evictLRU
  rw [List.getLast?_eq_getLast s.lruList h]

theorem clearKey_present (s : CacheState) (k : String) (v : CacheData)
    (hg : mapGet s.cacheMap k = some v) :
    clearKey s k =
      { s with lruList := s.lruList.erase k
               cacheMap := mapDelete s.cacheMap k
               currentSize := s.currentSize - 1 } := by
  unfold clearKey
  rw [hg]

theorem cacheInv_empty (cfg : CacheConfig) : CacheInv cfg emptyCache := by
  refine cacheInv_of_parts cfg _ rfl List.nodup_nil List.nodup_nil ?_ rfl (Nat.zero_le _)
  intro k
  simp [emptyCache, mapHas]

theorem cacheInv_setInMemory (cfg : CacheConfig) (s : CacheState) (k : String)
    (d : CacheData) (h : CacheInv cfg s) : CacheInv cfg (setInMemory cfg s k d) := by
  have h4 := cacheInv_mem_iff cfg s h
  obtain ⟨h1, h2, h3, _, _, h5, h6⟩ := h
  cases hg : mapGet s.cacheMap k with
  | some v =>
    rw [setInMemory_present cfg s k d v hg]
    have hhas : mapHas s.cacheMap k = true := (mapHas_true_iff _ _).mpr ⟨v, hg⟩
    have hkin : k ∈ s.lruList := (h4 k).mpr hhas
    have hlen : s.lruList.length ≥ 1 := by
      cases hl : s.lruList with
      | nil => rw [hl] at hkin; cases hkin
      | cons a l => simp
    refine cacheInv_of_parts cfg _ ?_ ?_ ?_ ?_ ?_ ?_
    · show s.currentSize = (mapSet s.cacheMap k d).length
      rw [mapSet_length_of_has _ _ _ hhas]
      exact h1
    · show ((mapSet s.cacheMap k d).map Prod.fst).Nodup
      rw [mapSet_keys_of_has _ _ _ hhas]
      exact h2
    · show (k :: s.lruList.erase k).Nodup
      refine List.nodup_cons.mpr ⟨?_, h3.erase k⟩
      rw [h3.mem_erase_iff]
      intro hc
      exact hc.1 rfl
    · intro x
      show x ∈ k :: s.lruList.erase k ↔ mapHas (mapSet s.cacheMap k d) x = true
      rw [List.mem_cons, mapHas_mapSet, h3.mem_erase_iff]
      by_cases hx : x = k
      · simp [hx, hhas]
      · simp [hx, h4 x]
    · show (k :: s.lruList.erase k).length = (mapSet s.cacheMap k d).length
      simp only [List.length_cons]
      rw [List.length_erase_of_mem hkin, mapSet_length_of_has _ _ _ hhas, ← h5]
      omega
    · show s.currentSize ≤ cfg.maxSize
      exact h6
  | none =>
    rw [setInMemory_fresh cfg s k d hg]
    have hhas : mapHas s.cacheMap k = false := (mapHas_eq_false_iff _ _).mpr hg
    have hknotin : k ∉ s.lruList := fun hc => by
      rw [h4 k, hhas] at hc
      cases hc
    have hset : mapSet s.cacheMap k d = s.cacheMap ++ [(k, d)] := mapSet_fresh _ _ _ hhas
    have hkeys1 : ((mapSet s.cacheMap k d).map Prod.fst).Nodup := by
      rw [hset]
      simp only [List.map_append, List.map_cons, List.map_nil]
      rw [List.nodup_append]
      refine ⟨h2, List.nodup_singleton _, ?_⟩
      intro a ha hb
      have hak : a = k := by simpa using hb
      subst hak
      rw [← mapHas_iff_mem_keys s.cacheMap a] at ha
      rw [ha] at hhas
      cases hhas
    have hlenm : (mapSet s.cacheMap k d).length = s.cacheMap.length + 1 := by
      simp [hset]
    have hnodup1 : (k :: s.lruList).Nodup := List.nodup_cons.mpr ⟨hknotin, h3⟩
    have hmem1 : ∀ x, x ∈ k :: s.lruList ↔ mapHas (mapSet s.cacheMap k d) x = true := by
      intro x
      rw [List.mem_cons, mapHas_mapSet]
      by_cases hx : x = k <;> simp [hx, h4 x]
    have hlen1 : (k :: s.lruList).length = (mapSet s.cacheMap k d).length := by
      simp [hset, h5]
    by_cases hov : s.currentSize + 1 > cfg.maxSize
    · rw [if_pos hov]
      have hne : (k :: s.lruList) ≠ [] := List.cons_ne_nil _ _
      rw [evictLRU_nonempty _ (by exact hne)]
      set tk := (k :: s.lruList).getLast hne with htk
      have htkin : tk ∈ k :: s.lruList := List.getLast_mem hne
      have htkhas : mapHas (mapSet s.cacheMap k d) tk = true := (hmem1 tk).mp htkin
      have hdlen := length_mapDelete_of_has (mapSet s.cacheMap k d) tk hkeys1 htkhas
      refine cacheInv_of_parts cfg _ ?_ ?_ ?_ ?_ ?_ ?_
      · show s.currentSize + 1 - 1 = (mapDelete (mapSet s.cacheMap k d) tk).length
        omega
      · show ((mapDelete (mapSet s.cacheMap k d) tk).map Prod.fst).Nodup
        exact ((mapDelete_sublist (mapSet s.cacheMap k d) tk).map Prod.fst).nodup hkeys1
      · show (k :: s.lruList).dropLast.Nodup
        exact (List.dropLast_sublist _).nodup hnodup1
      · intro x
        show x ∈ (k :: s.lruList).dropLast ↔
          mapHas (mapDelete (mapSet s.cacheMap k d) tk) x = true
        rw [mem_dropLast_iff _ x hne hnodup1, mapHas_mapDelete]
        by_cases hx : x = tk
        · simp [hx]
        · simp only [hx, if_false]
          rw [hmem1 x]
          simp [hx]
      · show (k :: s.lruList).dropLast.length = (mapDelete (mapSet s.cacheMap k d) tk).length
        simp only [List.length_dropLast, List.length_cons]
        omega
      · show s.currentSize + 1 - 1 ≤ cfg.maxSize
        omega
    · rw [if_neg hov]
      refine cacheInv_of_parts cfg _ ?_ hkeys1 hnodup1 hmem1 hlen1 ?_
      · show s.currentSize + 1 = (mapSet s.cacheMap k d).length
        omega
      · show s.currentSize + 1 ≤ cfg.maxSize
        omega

theorem cacheInv_clearKey (cfg : CacheConfig) (s : CacheState) (k : String)
    (h : CacheInv cfg s) : CacheInv cfg (clearKey s k) := by
  have h4 := cacheInv_mem_iff cfg s h
  obtain ⟨h1, h2, h3, h4a, h4b, h5, h6⟩ := h
  cases hg : mapGet s.cacheMap k with
  | none =>
    unfold clearKey
    rw [hg]
    exact ⟨h1, h2, h3, h4a, h4b, h5, h6⟩
  | some v =>
    rw [clearKey_present s k v hg]
    have hhas : mapHas s.cacheMap k = true := (mapHas_true_iff _ _).mpr ⟨v, hg⟩
    have hkin : k ∈ s.lruList := (h4 k).mpr hhas
    have hdlen := length_mapDelete_of_has s.cacheMap k h2 hhas
    refine cacheInv_of_parts cfg _ ?_ ?_ ?_ ?_ ?_ ?_
    · show s.currentSize - 1 = (mapDelete s.cacheMap k).length
      omega
    · show ((mapDelete s.cacheMap k).map Prod.fst).Nodup
      exact ((mapDelete_sublist s.cacheMap k).map Prod.fst).nodup h2
    · show (s.lruList.erase k).Nodup
      exact h3.erase k
    · intro x
      show x ∈ s.lruList.erase k ↔ mapHas (mapDelete s.cacheMap k) x = true
      rw [h3.mem_erase_iff, mapHas_mapDelete]
      by_cases hx : x = k
      · simp [hx]
      · simp [hx, h4 x]
    · show (s.lruList.erase k).length = (mapDelete s.cacheMap k).length
      rw [List.length_erase_of_mem hkin]
      omega
    · show s.currentSize - 1 ≤ cfg.maxSize
      omega

theorem cacheInv_load (cfg : CacheConfig) (s : CacheState) (k : String) (now : Int)
    (h : CacheInv cfg s) : CacheInv cfg (loadFromMemory cfg s k now).2 := by
  have h4 := cacheInv_mem_iff cfg s h
  obtain ⟨h1, h2, h3, h4a, h4b, h5, h6⟩ := h
  cases hg : mapGet s.cacheMap k with
  | none =>
    rw [loadFromMemory_absent cfg s k now hg]
    exact ⟨h1, h2, h3, h4a, h4b, h5, h6⟩
  | some v =>
    rw [loadFromMemory_present cfg s k now v hg]
    have hhas : mapHas s.cacheMap k = true := (mapHas_true_iff _ _).mpr ⟨v, hg⟩
    have hkin : k ∈ s.lruList := (h4 k).mpr hhas
    have hlen : s.lruList.length ≥ 1 := by
      cases hl : s.lruList with
      | nil => rw [hl] at hkin; cases hkin
      | cons a l => simp
    refine cacheInv_of_parts cfg _ h1 h2 ?_ ?_ ?_ h6
    · show (k :: s.lruList.erase k).Nodup
      refine List.nodup_cons.mpr ⟨?_, h3.erase k⟩
      rw [h3.mem_erase_iff]
      intro hc
      exact hc.1 rfl
    · intro x
      show x ∈ k :: s.lruList.erase k ↔ mapHas s.cacheMap x = true
      rw [List.mem_cons, h3.mem_erase_iff]
      by_cases hx : x = k
      · simp [hx, hhas]
      · simp [hx, h4 x]
    · show (k :: s.lruList.erase k).length = s.cacheMap.length
      simp only [List.length_cons]
      rw [List.length_erase_of_mem hkin, ← h5]
      omega

theorem cacheInv_applyOp (cfg : CacheConfig) (s : CacheState) (op : CacheOp)
    (h : CacheInv cfg s) : CacheInv cfg (applyOp cfg s op) := by
  cases op with
  | save k items now => exact cacheInv_setInMemory cfg s k (wrapEntry items now) h
  | load k now => exact cacheInv_load cfg s k now h
  | clear k => exact cacheInv_clearKey cfg s k h
  | clearAll =>
    refine cacheInv_of_parts cfg _ rfl List.nodup_nil List.nodup_nil ?_ rfl (Nat.zero_le _)
    intro k
    simp [applyOp, clearAllMemory, mapHas]

theorem cacheInv_applyOps (cfg : CacheConfig) (ops : List CacheOp) :
    ∀ s, CacheInv cfg s → CacheInv cfg (applyOps cfg s ops) := by
  induction ops with
  | nil => intro s h; exact h
  | cons op ops ih =>
    intro s h
    exact ih _ (cacheInv_applyOp cfg s op h)

theorem take_append_take {α : Type} (a b : List α) (m : Nat) :
    (a ++ b.take m).take m = (a ++ b).take m := by
  rw [List.take_append_eq_append_take, List.take_append_eq_append_take]
  congr 1
  rw [List.take_take]
  congr 1
  exact Nat.min_eq_left (Nat.sub_le _ _)

theorem setInMemory_fresh_lru (cfg : CacheConfig) (s : CacheState) (k : String)
    (d : CacheData) (h : CacheInv cfg s) (hg : mapGet s.cacheMap k = none) :
    (setInMemory cfg s k d).lruList = (k :: s.lruList).take cfg.maxSize := by
  obtain ⟨h1, _, _, _, _, h5, h6⟩ := h
  rw [setInMemory_fresh cfg s k d hg]
  have hslen : s.lruList.length = s.currentSize := by omega
  by_cases hov : s.currentSize + 1 > cfg.maxSize
  · rw [if_pos hov]
    have hsz : s.currentSize = cfg.maxSize := by omega
    have hne : (k :: s.lruList) ≠ [] := List.cons_ne_nil _ _
    rw [evictLRU_nonempty _ (by exact hne)]
    show (k :: s.lruList).dropLast = (k :: s.lruList).take cfg.maxSize
    rw [List.dropLast_eq_take]
    congr 1
    simp [hslen, hsz]
  · rw [if_neg hov]
    show k :: s.lruList = (k :: s.lruList).take cfg.maxSize
    symm
    apply List.take_of_length_le
    simp [hslen]
    omega

theorem mapHas_of_sublist {α : Type} {m1 m2 : List (String × α)}
    (hs : m1.Sublist m2) {j : String} (h : mapHas m1 j = true) :
    mapHas m2 j = true := by
  rw [mapHas_iff_mem_keys] at h ⊢
  exact (hs.map Prod.fst).subset h

theorem setInMemory_has_imp (cfg : CacheConfig) (s : CacheState) (k j : String)
    (d : CacheData) (h : mapHas (setInMemory cfg s k d).cacheMap j = true) :
    j = k ∨ mapHas s.cacheMap j = true := by
  have hsetcase : mapHas (mapSet s.cacheMap k d) j = true →
      j = k ∨ mapHas s.cacheMap j = true := by
    intro h2
    rw [mapHas_mapSet] at h2
    by_cases hj : j = k
    · exact Or.inl hj
    · simp [hj] at h2
      exact Or.inr h2
  cases hg : mapGet s.cacheMap k with
  | some v =>
    rw [setInMemory_present cfg s k d v hg] at h
    exact hsetcase h
  | none =>
    rw [setInMemory_fresh cfg s k d hg] at h
    by_cases hov : s.currentSize + 1 > cfg.maxSize
    · rw [if_pos hov] at h
      have hne : (k :: s.lruList) ≠ [] := List.cons_ne_nil _ _
      rw [evictLRU_nonempty _ (by exact hne)] at h
      have h2 : mapHas (mapDelete (mapSet s.cacheMap k d)
          ((k :: s.lruList).getLast hne)) j = true := h
      exact hsetcase (mapHas_of_sublist (mapDelete_sublist _ _) h2)
    · rw [if_neg hov] at h
      exact hsetcase h

theorem savesFold (cfg : CacheConfig) (items : List BookmarkItem) (now : Int) :
    ∀ (ks : List String) (s : CacheState), CacheInv cfg s →
      (∀ k ∈ ks, mapHas s.cacheMap k = false) → ks.Nodup →
      CacheInv cfg (ks.foldl (fun acc k => saveInMemory cfg acc k items now) s) ∧
      (ks.foldl (fun acc k => saveInMemory cfg acc k items now) s).lruList
        = (ks.reverse ++ s.lruList).take cfg.maxSize := by
  intro ks
  induction ks with
  | nil =>
    intro s h hf hn
    refine ⟨h, ?_⟩
    obtain ⟨h1, _, _, _, _, h5, h6⟩ := h
    simp only [List.foldl_nil, List.reverse_nil, List.nil_append]
    symm
    apply List.take_of_length_le
    omega
  | cons k ks ih =>
    intro s h hf hn
    have hg : mapGet s.cacheMap k = none :=
      (mapHas_eq_false_iff _ _).mp (hf k (List.mem_cons_self _ _))
    have hInv2 : CacheInv cfg (saveInMemory cfg s k items now) :=
      cacheInv_setInMemory cfg s k (wrapEntry items now) h
    have hlru2 : (saveInMemory cfg s k items now).lruList
        = (k :: s.lruList).take cfg.maxSize :=
      setInMemory_fresh_lru cfg s k (wrapEntry items now) h hg
    have hf2 : ∀ j ∈ ks, mapHas (saveInMemory cfg s k items now).cacheMap j = false := by
      intro j hj
      cases hb : mapHas (saveInMemory cfg s k items now).cacheMap j with
      | false => rfl
      | true =>
        cases setInMemory_has_imp cfg s k j (wrapEntry items now) hb with
        | inl hc =>
          subst hc
          exact absurd hj (List.nodup_cons.mp hn).1
        | inr hc =>
          rw [hf j (List.mem_cons_of_mem k hj)] at hc
          cases hc
    have hstep : (k :: ks).foldl (fun acc j => saveInMemory cfg acc j items now) s
        = ks.foldl (fun acc j => saveInMemory cfg acc j items now)
            (saveInMemory cfg s k items now) := rfl
    rw [hstep]
    obtain ⟨hI, hL⟩ := ih (saveInMemory cfg s k items now) hInv2 hf2
      (List.nodup_cons.mp hn).2
    refine ⟨hI, ?_⟩
    rw [hL, hlru2, take_append_take]
    congr 1
    simp

/-- C2: in the in-memory LRU, (i) after any sequence of operations from a
fresh cache `currentSize` equals the number of keys in the cache map (the
full reachability invariant holds); (ii) inserting a fresh key into a cache
already holding `maxSize` entries keeps the size at `maxSize`, stores the new
key, and evicts exactly the tail key of the LRU list while every other key is
untouched; (iii) inserting `maxSize + 1` distinct keys from empty leaves
exactly `maxSize` entries and the evicted key is the first-inserted
(least-recently-touched) one; (iv) a load of a present key moves that key's
node to the head of the list. -/
theorem c2_lru_eviction_discipline :
    (∀ (cfg : CacheConfig) (ops : List CacheOp),
      (applyOps cfg emptyCache ops).currentSize
        = (applyOps cfg emptyCache ops).cacheMap.length ∧
      CacheInv cfg (applyOps cfg emptyCache ops)) ∧
    (∀ (cfg : CacheConfig) (s : CacheState) (k : String) (d : CacheData)
      (hne : s.lruList ≠ []),
      CacheInv cfg s → s.currentSize = cfg.maxSize → 0 < cfg.maxSize →
      mapGet s.cacheMap k = none →
        (setInMemory cfg s k d).currentSize = cfg.maxSize ∧
        mapHas (setInMemory cfg s k d).cacheMap k = true ∧
        mapHas (setInMemory cfg s k d).cacheMap (s.lruList.getLast hne) = false ∧
        (∀ j, j ≠ k → j ≠ s.lruList.getLast hne →
          mapHas (setInMemory cfg s k d).cacheMap j = mapHas s.cacheMap j)) ∧
    (∀ (cfg : CacheConfig) (k0 : String) (rest : List String)
      (items : List BookmarkItem) (now : Int),
      (k0 :: rest).Nodup → rest.length = cfg.maxSize → 0 < cfg.maxSize →
        ((k0 :: rest).foldl (fun acc k => saveInMemory cfg acc k items now)
          emptyCache).currentSize = cfg.maxSize ∧
        mapHas ((k0 :: rest).foldl (fun acc k => saveInMemory cfg acc k items now)
          emptyCache).cacheMap k0 = false ∧
        (∀ j ∈ rest, mapHas ((k0 :: rest).foldl
          (fun acc k => saveInMemory cfg acc k items now) emptyCache).cacheMap j
          = true)) ∧
    (∀ (cfg : CacheConfig) (s : CacheState) (k : String) (now : Int) (v : CacheData),
      mapGet s.cacheMap k = some v →
        (loadFromMemory cfg s k now).2.lruList = k :: s.lruList.erase k ∧
        (loadFromMemory cfg s k now).2.lruList.head? = some k) := by
  refine ⟨?_, ?_, ?_, ?_⟩
  · intro cfg ops
    have h := cacheInv_applyOps cfg ops emptyCache (cacheInv_empty cfg)
    exact ⟨h.1, h⟩
  · intro cfg s k d hne h hsz hpos hg
    have h4 := cacheInv_mem_iff cfg s h
    obtain ⟨h1, h2, h3, _, _, h5, h6⟩ := h
    have hhas : mapHas s.cacheMap k = false := (mapHas_eq_false_iff _ _).mpr hg
    have hknotin : k ∉ s.lruList := fun hc => by
      rw [h4 k, hhas] at hc
      cases hc
    have htkin : s.lruList.getLast hne ∈ s.lruList := List.getLast_mem hne
    have hktk : ¬ (k = s.lruList.getLast hne) := by
      intro hc
      rw [hc] at hknotin
      exact hknotin htkin
    have hne2 : (k :: s.lruList) ≠ [] := List.cons_ne_nil _ _
    have htkc : (k :: s.lruList).getLast hne2 = s.lruList.getLast hne :=
      List.getLast_cons hne
    have hov : s.currentSize + 1 > cfg.maxSize := by omega
    rw [setInMemory_fresh cfg s k d hg, if_pos hov,
      evictLRU_nonempty _ (by exact hne2)]
    have hkeys1 : ((mapSet s.cacheMap k d).map Prod.fst).Nodup := by
      rw [mapSet_fresh _ _ _ hhas]
      simp only [List.map_append, List.map_cons, List.map_nil]
      rw [List.nodup_append]
      refine ⟨h2, List.nodup_singleton _, ?_⟩
      intro a ha hb
      have hak : a = k := by simpa using hb
      subst hak
      rw [← mapHas_iff_mem_keys s.cacheMap a] at ha
      rw [ha] at hhas
      cases hhas
    refine ⟨?_, ?_, ?_, ?_⟩
    · show s.currentSize + 1 - 1 = cfg.maxSize
      omega
    · show mapHas (mapDelete (mapSet s.cacheMap k d)
        ((k :: s.lruList).getLast hne2)) k = true
      rw [mapHas_mapDelete, htkc, if_neg hktk, mapHas_mapSet]
      simp
    · show mapHas (mapDelete (mapSet s.cacheMap k d)
        ((k :: s.lruList).getLast hne2)) (s.lruList.getLast hne) = false
      rw [mapHas_mapDelete, htkc, if_pos rfl]
    · intro j hjk hjtk
      show mapHas (mapDelete (mapSet s.cacheMap k d)
        ((k :: s.lruList).getLast hne2)) j = mapHas s.cacheMap j
      rw [mapHas_mapDelete, htkc, if_neg hjtk, mapHas_mapSet]
      simp [hjk]
  · intro cfg k0 rest items now hn hlen hpos
    have hres := savesFold cfg items now (k0 :: rest) emptyCache (cacheInv_empty cfg)
      (by intro j hj; rfl) hn
    obtain ⟨hI, hL⟩ := hres
    have hrevlen : rest.reverse.length = cfg.maxSize := by simp [hlen]
    have hlru : ((k0 :: rest).foldl (fun acc k => saveInMemory cfg acc k items now)
        emptyCache).lruList = rest.reverse := by
      rw [hL]
      show ((k0 :: rest).reverse ++ ([] : List String)).take cfg.maxSize = rest.reverse
      rw [List.append_nil, List.reverse_cons, List.take_append_eq_append_take,
        hrevlen]
      simp
      omega
    have h4 := cacheInv_mem_iff cfg _ hI
    obtain ⟨h1, _, _, _, _, h5, _⟩ := hI
    refine ⟨?_, ?_, ?_⟩
    · rw [h1, ← h5, hlru, hrevlen]
    · cases hb : mapHas ((k0 :: rest).foldl
        (fun acc k => saveInMemory cfg acc k items now) emptyCache).cacheMap k0 with
      | false => rfl
      | true =>
        have := (h4 k0).mpr hb
        rw [hlru] at this
        rw [List.mem_reverse] at this
        exact absurd this (List.nodup_cons.mp hn).1
    · intro j hj
      refine (h4 j).mp ?_
      rw [hlru, List.mem_reverse]
      exact hj
  · intro cfg s k now v hg
    rw [loadFromMemory_present cfg s k now v hg]
    exact ⟨rfl, rfl⟩

/-- C2 witness: with `maxSize = 2`, a concrete operation sequence keeps
`currentSize` equal to the map size; inserting a fresh third key into a full
cache evicts exactly the tail `"a"`; inserting three distinct keys from empty
evicts the first; and a load promotes the loaded key to the head. -/
theorem c2_lru_eviction_discipline_witness :
    (applyOps ⟨2, -1⟩ emptyCache
      [.save "a" [] 0, .save "b" [] 1, .load "a" 2, .save "c" [] 3]).currentSize
      = (applyOps ⟨2, -1⟩ emptyCache
      [.save "a" [] 0, .save "b" [] 1, .load "a" 2, .save "c" [] 3]).cacheMap.length ∧
    (setInMemory ⟨2, -1⟩ ⟨["b", "a"], [("a", wrapEntry [] 0), ("b", wrapEntry [] 1)], 2, 0, 0⟩
      "c" (wrapEntry [] 2)).currentSize = 2 ∧
    mapHas (setInMemory ⟨2, -1⟩
      ⟨["b", "a"], [("a", wrapEntry [] 0), ("b", wrapEntry [] 1)], 2, 0, 0⟩
      "c" (wrapEntry [] 2)).cacheMap "a" = false ∧
    mapHas (["a", "b", "c"].foldl
      (fun acc k => saveInMemory ⟨2, -1⟩ acc k [] 0) emptyCache).cacheMap "a" = false ∧
    (["a", "b", "c"].foldl
      (fun acc k => saveInMemory ⟨2, -1⟩ acc k [] 0) emptyCache).currentSize = 2 ∧
    (loadFromMemory ⟨2, -1⟩
      ⟨["b", "a"], [("a", wrapEntry [] 0), ("b", wrapEntry [] 1)], 2, 0, 0⟩
      "a" 5).2.lruList.head? = some "a" := by
  refine ⟨?_, ?_, ?_, ?_, ?_, ?_⟩
  · exact (c2_lru_eviction_discipline.1 ⟨2, -1⟩
      [.save "a" [] 0, .save "b" [] 1, .load "a" 2, .save "c" [] 3]).1
  · exact (c2_lru_eviction_discipline.2.1 ⟨2, -1⟩
      ⟨["b", "a"], [("a", wrapEntry [] 0), ("b", wrapEntry [] 1)], 2, 0, 0⟩
      "c" (wrapEntry [] 2) (by decide) (by decide) (by decide) (by decide)
      (by decide)).1
  · exact (c2_lru_eviction_discipline.2.1 ⟨2, -1⟩
      ⟨["b", "a"], [("a", wrapEntry [] 0), ("b", wrapEntry [] 1)], 2, 0, 0⟩
      "c" (wrapEntry [] 2) (by decide) (by decide) (by decide) (by decide)
      (by decide)).2.2.1
  · exact (c2_lru_eviction_discipline.2.2.1 ⟨2, -1⟩ "a" ["b", "c"] [] 0
      (by decide) (by decide) (by decide)).2.1
  · exact (c2_lru_eviction_discipline.2.2.1 ⟨2, -1⟩ "a" ["b", "c"] [] 0
      (by decide) (by decide) (by decide)).1
  · exact (c2_lru_eviction_discipline.2.2.2 ⟨2, -1⟩
      ⟨["b", "a"], [("a", wrapEntry [] 0), ("b", wrapEntry [] 1)], 2, 0, 0⟩
      "a" 5 (wrapEntry [] 0) (by decide)).2

/-! ## Build characterization (C1, C4) -/

theorem forest_induction {P : List BookmarkItem → Prop}
    (hnil : P [])
    (hleaf : ∀ i t u tg rest, P rest → P (.leaf i t u tg :: rest))
    (hsep : ∀ oid rest, P rest → P (.separator oid :: rest))
    (hfolder : ∀ i t cs rest, P cs → P rest → P (.folder i t cs :: rest)) :
    ∀ items, P items
  | [] => hnil
  | .leaf i t u tg :: rest =>
    hleaf i t u tg rest (forest_induction hnil hleaf hsep hfolder rest)
  | .separator oid :: rest =>
    hsep oid rest (forest_induction hnil hleaf hsep hfolder rest)
  | .folder i t cs :: rest =>
    hfolder i t cs rest (forest_induction hnil hleaf hsep hfolder cs)
      (forest_induction hnil hleaf hsep hfolder rest)

theorem mapHas_append {α : Type} (a b : List (String × α)) (k : String) :
    mapHas (a ++ b) k = (mapHas a k || mapHas b k) := by
  induction a with
  | nil => simp [mapHas]
  | cons p a ih => simp [mapHas, ih, Bool.or_assoc]

theorem mapGet_append_of_not_has {α : Type} (a b : List (String × α)) (k : String)
    (hb : mapHas b k = false) : mapGet (a ++ b) k = mapGet a k := by
  cases hg : mapGet a k with
  | some v => exact mapGet_append_left a b k v hg
  | none =>
    rw [mapGet_append_right a b k hg]
    exact (mapHas_eq_false_iff b k).mp hb

theorem buildItems_nil (p : Option String) (path : List String) (idx : BookmarkIndex) :
    buildItems [] p path idx = (idx, []) := by
  simp [buildItems]

theorem buildItems_leaf_skip (t u : String) (tg : Option (List String))
    (rest : List BookmarkItem) (p : Option String) (path : List String)
    (idx : BookmarkIndex) :
    buildItems (.leaf "" t u tg :: rest) p path idx = buildItems rest p path idx := by
  simp [buildItems]

theorem buildItems_leaf (i t u : String) (tg : Option (List String))
    (rest : List BookmarkItem) (p : Option String) (path : List String)
    (idx : BookmarkIndex) (h : ¬ i = "") :
    buildItems (.leaf i t u tg :: rest) p path idx =
      ((buildItems rest p path (indexOne idx i (.leaf i t u tg) p path)).1,
       i :: (buildItems rest p path (indexOne idx i (.leaf i t u tg) p path)).2) := by
  simp [buildItems, h]

theorem buildItems_sep_none (rest : List BookmarkItem) (p : Option String)
    (path : List String) (idx : BookmarkIndex) :
    buildItems (.separator none :: rest) p path idx = buildItems rest p path idx := by
  simp [buildItems]

theorem buildItems_sep_skip (rest : List BookmarkItem) (p : Option String)
    (path : List String) (idx : BookmarkIndex) :
    buildItems (.separator (some "") :: rest) p path idx
      = buildItems rest p path idx := by
  simp [buildItems]

theorem buildItems_sep (i : String) (rest : List BookmarkItem) (p : Option String)
    (path : List String) (idx : BookmarkIndex) (h : ¬ i = "") :
    buildItems (.separator (some i) :: rest) p path idx =
      ((buildItems rest p path (indexOne idx i (.separator (some i)) p path)).1,
       i :: (buildItems rest p path (indexOne idx i (.separator (some i)) p path)).2) := by
  simp [buildItems, h]

theorem buildItems_folder_skip (t : String) (cs rest : List BookmarkItem)
    (p : Option String) (path : List String) (idx : BookmarkIndex) :
    buildItems (.folder "" t cs :: rest) p path idx = buildItems rest p path idx := by
  simp [buildItems]

theorem buildItems_folder (i t : String) (cs rest : List BookmarkItem)
    (p : Option String) (path : List String) (idx : BookmarkIndex) (h : ¬ i = "") :
    buildItems (.folder i t cs :: rest) p path idx =
      (let idx1 := indexOne idx i (.folder i t cs) p path
       let rc := buildItems cs (some i) (path ++ [i]) idx1
       let idx2 :=
         if rc.2.isEmpty then rc.1
         else { rc.1 with childrenIndex := mapSet rc.1.childrenIndex i rc.2 }
       ((buildItems rest p path idx2).1, i :: (buildItems rest p path idx2).2)) := by
  simp [buildItems, h]

theorem keys_entriesOf : ∀ l : List BookmarkItem,
    (entriesOf l).map Prod.fst = collectIds l := by
  apply forest_induction
  · simp [entriesOf, collectIds]
  · intro i t u tg rest ih
    by_cases hi : i = "" <;> simp [entriesOf, collectIds, hi, ih]
  · intro oid rest ih
    cases oid with
    | none => simp [entriesOf, collectIds, ih]
    | some i => by_cases hi : i = "" <;> simp [entriesOf, collectIds, hi, ih]
  · intro i t cs rest ihc ih
    by_cases hi : i = "" <;> simp [entriesOf, collectIds, hi, ihc, ih]

theorem mapHas_entriesOf (l : List BookmarkItem) (k : String) :
    mapHas (entriesOf l) k = true → k ∈ collectIds l := by
  intro h
  rw [mapHas_iff_mem_keys, keys_entriesOf] at h
  exact h

theorem mem_collectIds_of_childEntries : ∀ (l : List BookmarkItem) (k : String),
    mapHas (childEntriesOf l) k = true → k ∈ collectIds l := by
  apply forest_induction
    (P := fun l => ∀ k, mapHas (childEntriesOf l) k = true → k ∈ collectIds l)
  · intro k h
    simp [childEntriesOf, mapHas] at h
  · intro i t u tg rest ih k h
    simp only [childEntriesOf] at h
    by_cases hi : i = "" <;> simp [collectIds, hi]
    · exact ih k h
    · exact Or.inr (ih k h)
  · intro oid rest ih k h
    simp only [childEntriesOf] at h
    cases oid with
    | none => simpa [collectIds] using ih k h
    | some i =>
      by_cases hi : i = "" <;> simp [collectIds, hi]
      · exact ih k h
      · exact Or.inr (ih k h)
  · intro i t cs rest ihc ih k h
    simp only [childEntriesOf] at h
    by_cases hi : i = ""
    · rw [if_pos hi] at h
      simp only [List.nil_append] at h
      simp [collectIds, hi]
      exact ih k h
    · rw [if_neg hi] at h
      rw [mapHas_append, mapHas_append] at h
      simp only [Bool.or_eq_true] at h
      simp only [collectIds, hi, if_false, List.cons_append, List.mem_cons,
        List.mem_append]
      rcases h with (h | h) | h
      · exact Or.inr (Or.inl (ihc k h))
      · by_cases hd : directIds cs = []
        · rw [if_pos hd] at h
          simp [mapHas] at h
        · rw [if_neg hd] at h
          have hik : i = k := by
            simpa [mapHas] using h
          exact Or.inl hik.symm
      · exact Or.inr (Or.inr (ih k h))

theorem indexOne_itemMap (idx : BookmarkIndex) (i : String) (it : BookmarkItem)
    (p : Option String) (path : List String) :
    (indexOne idx i it p path).itemMap = mapSet idx.itemMap i it := rfl

theorem indexOne_childrenIndex (idx : BookmarkIndex) (i : String) (it : BookmarkItem)
    (p : Option String) (path : List String) :
    (indexOne idx i it p path).childrenIndex = idx.childrenIndex := rfl

theorem buildItems_spec : ∀ (items : List BookmarkItem) (p : Option String)
    (path : List String) (idx : BookmarkIndex),
    (collectIds items).Nodup →
    (∀ k ∈ collectIds items, mapHas idx.itemMap k = false) →
    (∀ k ∈ collectIds items, mapHas idx.childrenIndex k = false) →
    (buildItems items p path idx).1.itemMap = idx.itemMap ++ entriesOf items ∧
    (buildItems items p path idx).1.childrenIndex
      = idx.childrenIndex ++ childEntriesOf items ∧
    (buildItems items p path idx).2 = directIds items := by
  apply forest_induction (P := fun items => ∀ (p : Option String)
    (path : List String) (idx : BookmarkIndex),
    (collectIds items).Nodup →
    (∀ k ∈ collectIds items, mapHas idx.itemMap k = false) →
    (∀ k ∈ collectIds items, mapHas idx.childrenIndex k = false) →
    (buildItems items p path idx).1.itemMap = idx.itemMap ++ entriesOf items ∧
    (buildItems items p path idx).1.childrenIndex
      = idx.childrenIndex ++ childEntriesOf items ∧
    (buildItems items p path idx).2 = directIds items)
  · intro p path idx _ _ _
    rw [buildItems_nil]
    simp [entriesOf, childEntriesOf, directIds]
  · intro i t u tg rest ih p path idx hn hf1 hf2
    by_cases hi : i = ""
    · subst hi
      rw [buildItems_leaf_skip]
      have hcoll : collectIds (.leaf "" t u tg :: rest) = collectIds rest := by
        simp [collectIds]
      rw [hcoll] at hn hf1 hf2
      have := ih p path idx hn hf1 hf2
      simp only [entriesOf, childEntriesOf, directIds] at *
      simpa [truthyId, getItemId] using this
    · have hcoll : collectIds (.leaf i t u tg :: rest) = i :: collectIds rest := by
        simp [collectIds, hi]
      rw [hcoll] at hn hf1 hf2
      have hifresh1 := hf1 i (List.mem_cons_self _ _)
      rw [buildItems_leaf i t u tg rest p path idx hi]
      have hmap1 : (indexOne idx i (.leaf i t u tg) p path).itemMap
          = idx.itemMap ++ [(i, .leaf i t u tg)] := by
        rw [indexOne_itemMap, mapSet_fresh _ _ _ hifresh1]
      have hih := ih p path (indexOne idx i (.leaf i t u tg) p path)
        (List.nodup_cons.mp hn).2
        (by
          intro k hk
          rw [hmap1, mapHas_append]
          have hki : ¬ (k = i) := fun hc =>
            (List.nodup_cons.mp hn).1 (hc ▸ hk)
          have hik : ¬ (i = k) := fun hc => hki hc.symm
          simp [mapHas, hki, hik, hf1 k (List.mem_cons_of_mem _ hk)])
        (by
          intro k hk
          rw [indexOne_childrenIndex]
          exact hf2 k (List.mem_cons_of_mem _ hk))
      refine ⟨?_, ?_, ?_⟩
      · show (buildItems rest p path _).1.itemMap = _
        rw [hih.1, hmap1]
        simp [entriesOf, hi]
      · show (buildItems rest p path _).1.childrenIndex = _
        rw [hih.2.1, indexOne_childrenIndex]
        simp [childEntriesOf]
      · show i :: (buildItems rest p path _).2 = _
        rw [hih.2.2]
        simp [directIds, truthyId, getItemId, hi]
  · intro oid rest ih p path idx hn hf1 hf2
    cases oid with
    | none =>
      rw [buildItems_sep_none]
      have hcoll : collectIds (.separator none :: rest) = collectIds rest := by
        simp [collectIds]
      rw [hcoll] at hn hf1 hf2
      have := ih p path idx hn hf1 hf2
      refine ⟨?_, ?_, ?_⟩
      · rw [this.1]
        simp [entriesOf]
      · rw [this.2.1]
        simp [childEntriesOf]
      · rw [this.2.2]
        simp [directIds, truthyId, getItemId]
    | some i =>
      by_cases hi : i = ""
      · subst hi
        rw [buildItems_sep_skip]
        have hcoll : collectIds (.separator (some "") :: rest) = collectIds rest := by
          simp [collectIds]
        rw [hcoll] at hn hf1 hf2
        have := ih p path idx hn hf1 hf2
        refine ⟨?_, ?_, ?_⟩
        · rw [this.1]
          simp [entriesOf]
        · rw [this.2.1]
          simp [childEntriesOf]
        · rw [this.2.2]
          simp [directIds, truthyId, getItemId]
      · have hcoll : collectIds (.separator (some i) :: rest) = i :: collectIds rest := by
          simp [collectIds, hi]
        rw [hcoll] at hn hf1 hf2
        have hifresh1 := hf1 i (List.mem_cons_self _ _)
        rw [buildItems_sep i rest p path idx hi]
        have hmap1 : (indexOne idx i (.separator (some i)) p path).itemMap
            = idx.itemMap ++ [(i, .separator (some i))] := by
          rw [indexOne_itemMap, mapSet_fresh _ _ _ hifresh1]
        have hih := ih p path (indexOne idx i (.separator (some i)) p path)
          (List.nodup_cons.mp hn).2
          (by
            intro k hk
            rw [hmap1, mapHas_append]
            have hki : ¬ (k = i) := fun hc =>
              (List.nodup_cons.mp hn).1 (hc ▸ hk)
            have hik : ¬ (i = k) := fun hc => hki hc.symm
            simp [mapHas, hki, hik, hf1 k (List.mem_cons_of_mem _ hk)])
          (by
            intro k hk
            rw [indexOne_childrenIndex]
            exact hf2 k (List.mem_cons_of_mem _ hk))
        refine ⟨?_, ?_, ?_⟩
        · show (buildItems rest p path _).1.itemMap = _
          rw [hih.1, hmap1]
          simp [entriesOf, hi]
        · show (buildItems rest p path _).1.childrenIndex = _
          rw [hih.2.1, indexOne_childrenIndex]
          simp [childEntriesOf]
        · show i :: (buildItems rest p path _).2 = _
          rw [hih.2.2]
          simp [directIds, truthyId, getItemId, hi]
  · intro i t cs rest ihc ih p path idx hn hf1 hf2
    by_cases hi : i = ""
    · subst hi
      rw [buildItems_folder_skip]
      have hcoll : collectIds (.folder "" t cs :: rest) = collectIds rest := by
        simp [collectIds]
      rw [hcoll] at hn hf1 hf2
      have := ih p path idx hn hf1 hf2
      refine ⟨?_, ?_, ?_⟩
      · rw [this.1]
        simp [entriesOf]
      · rw [this.2.1]
        simp [childEntriesOf]
      · rw [this.2.2]
        simp [directIds, truthyId, getItemId]
    · have hcoll : collectIds (.folder i t cs :: rest)
          = i :: (collectIds cs ++ collectIds rest) := by
        simp [collectIds, hi]
      rw [hcoll] at hn hf1 hf2
      obtain ⟨hni, hnrest0⟩ := List.nodup_cons.mp hn
      rw [List.nodup_append] at hnrest0
      obtain ⟨hncs, hnrest, hdisj⟩ := hnrest0
      have hicsnot : i ∉ collectIds cs := fun hc => hni (List.mem_append_left _ hc)
      have hirestnot : i ∉ collectIds rest := fun hc => hni (List.mem_append_right _ hc)
      have hifresh1 := hf1 i (List.mem_cons_self _ _)
      have hifresh2 := hf2 i (List.mem_cons_self _ _)
      rw [buildItems_folder i t cs rest p path idx hi]
      simp only []
      have hmap1 : (indexOne idx i (.folder i t cs) p path).itemMap
          = idx.itemMap ++ [(i, .folder i t cs)] := by
        rw [indexOne_itemMap, mapSet_fresh _ _ _ hifresh1]
      have hihc := ihc (some i) (path ++ [i]) (indexOne idx i (.folder i t cs) p path)
        hncs
        (by
          intro k hk
          rw [hmap1, mapHas_append]
          have hki : ¬ (k = i) := fun hc => hicsnot (hc ▸ hk)
          have hik : ¬ (i = k) := fun hc => hki hc.symm
          simp [mapHas, hki, hik,
            hf1 k (List.mem_cons_of_mem _ (List.mem_append_left _ hk))])
        (by
          intro k hk
          rw [indexOne_childrenIndex]
          exact hf2 k (List.mem_cons_of_mem _ (List.mem_append_left _ hk)))
      obtain ⟨hc1, hc2, hc3⟩ := hihc
      have hcifresh : mapHas (buildItems cs (some i) (path ++ [i])
          (indexOne idx i (.folder i t cs) p path)).1.childrenIndex i = false := by
        rw [hc2, indexOne_childrenIndex, mapHas_append, hifresh2]
        cases hb : mapHas (childEntriesOf cs) i with
        | false => rfl
        | true => exact absurd (mem_collectIds_of_childEntries cs i hb) hicsnot
      have hidx2map : (if (buildItems cs (some i) (path ++ [i])
            (indexOne idx i (.folder i t cs) p path)).2.isEmpty then
            (buildItems cs (some i) (path ++ [i])
              (indexOne idx i (.folder i t cs) p path)).1
          else { (buildItems cs (some i) (path ++ [i])
              (indexOne idx i (.folder i t cs) p path)).1 with
            childrenIndex := mapSet (buildItems cs (some i) (path ++ [i])
              (indexOne idx i (.folder i t cs) p path)).1.childrenIndex i
              (buildItems cs (some i) (path ++ [i])
                (indexOne idx i (.folder i t cs) p path)).2 }).itemMap
          = idx.itemMap ++ ((i, BookmarkItem.folder i t cs) :: entriesOf cs) := by
        by_cases hb : (buildItems cs (some i) (path ++ [i])
            (indexOne idx i (.folder i t cs) p path)).2.isEmpty
        · rw [if_pos hb, hc1, hmap1]
          simp
        · rw [if_neg hb]
          show (buildItems cs (some i) (path ++ [i])
            (indexOne idx i (.folder i t cs) p path)).1.itemMap = _
          rw [hc1, hmap1]
          simp
      have hidx2ci : (if (buildItems cs (some i) (path ++ [i])
            (indexOne idx i (.folder i t cs) p path)).2.isEmpty then
            (buildItems cs (some i) (path ++ [i])
              (indexOne idx i (.folder i t cs) p path)).1
          else { (buildItems cs (some i) (path ++ [i])
              (indexOne idx i (.folder i t cs) p path)).1 with
            childrenIndex := mapSet (buildItems cs (some i) (path ++ [i])
              (indexOne idx i (.folder i t cs) p path)).1.childrenIndex i
              (buildItems cs (some i) (path ++ [i])
                (indexOne idx i (.folder i t cs) p path)).2 }).childrenIndex
          = idx.childrenIndex ++ (childEntriesOf cs ++
              (if directIds cs = [] then [] else [(i, directIds cs)])) := by
        by_cases hb : (buildItems cs (some i) (path ++ [i])
            (indexOne idx i (.folder i t cs) p path)).2.isEmpty
        · rw [if_pos hb, hc2, indexOne_childrenIndex]
          have hd : directIds cs = [] := by
            rw [← hc3]
            exact List.isEmpty_iff.mp hb
          rw [if_pos hd]
          simp
        · rw [if_neg hb]
          show mapSet (buildItems cs (some i) (path ++ [i])
              (indexOne idx i (.folder i t cs) p path)).1.childrenIndex i
              (buildItems cs (some i) (path ++ [i])
                (indexOne idx i (.folder i t cs) p path)).2 = _
          rw [mapSet_fresh _ _ _ hcifresh, hc2, hc3, indexOne_childrenIndex]
          have hd : ¬ (directIds cs = []) := by
            rw [← hc3]
            intro hc
            rw [List.isEmpty_iff] at hb
            exact hb hc
          rw [if_neg hd]
          simp
      have hih := ih p path _ hnrest
        (by
          intro k hk
          rw [hidx2map, mapHas_append]
          have hki : ¬ (k = i) := fun hc => hirestnot (hc ▸ hk)
          have hkcs : mapHas (entriesOf cs) k = false := by
            cases hb : mapHas (entriesOf cs) k with
            | false => rfl
            | true => exact absurd hk (hdisj (mapHas_entriesOf cs k hb))
          have hmem : k ∈ i :: (collectIds cs ++ collectIds rest) :=
            List.mem_cons_of_mem _ (List.mem_append_right _ hk)
          have hik : ¬ (i = k) := fun hc => hki hc.symm
          simp only [mapHas, Bool.or_eq_false_iff, decide_eq_false_iff_not]
          exact ⟨hf1 k hmem, hik, by simpa using hkcs⟩)
        (by
          intro k hk
          rw [hidx2ci, mapHas_append, mapHas_append]
          have hki : ¬ (k = i) := fun hc => hirestnot (hc ▸ hk)
          have hkcs : mapHas (childEntriesOf cs) k = false := by
            cases hb : mapHas (childEntriesOf cs) k with
            | false => rfl
            | true => exact absurd hk (hdisj (mem_collectIds_of_childEntries cs k hb))
          have hkopt : mapHas (if directIds cs = [] then []
              else [(i, directIds cs)]) k = false := by
            by_cases hd : directIds cs = []
            · rw [if_pos hd]
              rfl
            · rw [if_neg hd]
              have hik : ¬ (i = k) := fun hc => hki hc.symm
              simp [mapHas, hik]
          rw [hf2 k (List.mem_cons_of_mem _ (List.mem_append_right _ hk)), hkcs, hkopt]
          rfl)
      refine ⟨?_, ?_, ?_⟩
      · show (buildItems rest p path _).1.itemMap = _
        rw [hih.1, hidx2map]
        simp [entriesOf, hi]
      · show (buildItems rest p path _).1.childrenIndex = _
        rw [hih.2.1, hidx2ci]
        simp only [childEntriesOf, hi, if_false]
        simp
      · show i :: (buildItems rest p path _).2 = _
        rw [hih.2.2]
        simp [directIds, truthyId, getItemId, hi]

theorem mapGet_none_of_not_has {α : Type} {m : List (String × α)} {k : String}
    (h : mapHas m k = false) : mapGet m k = none :=
  (mapHas_eq_false_iff m k).mp h

theorem mapGet_skip_left {α : Type} (a b : List (String × α)) (k : String)
    (h : mapHas a k = false) : mapGet (a ++ b) k = mapGet b k :=
  mapGet_append_right a b k (mapGet_none_of_not_has h)

theorem entriesOf_has_of_mem (l : List BookmarkItem) (k : String)
    (h : k ∈ collectIds l) : mapHas (entriesOf l) k = true := by
  rw [mapHas_iff_mem_keys, keys_entriesOf]
  exact h

theorem entriesOf_not_has (l : List BookmarkItem) (k : String)
    (h : k ∉ collectIds l) : mapHas (entriesOf l) k = false := by
  cases hb : mapHas (entriesOf l) k with
  | false => rfl
  | true => exact absurd (mapHas_entriesOf l k hb) h

theorem childEntriesOf_not_has (l : List BookmarkItem) (k : String)
    (h : k ∉ collectIds l) : mapHas (childEntriesOf l) k = false := by
  cases hb : mapHas (childEntriesOf l) k with
  | false => rfl
  | true => exact absurd (mem_collectIds_of_childEntries l k hb) h

theorem representsAll_parts : ∀ (l : List BookmarkItem),
    (collectIds l).Nodup →
    ∀ (idx : BookmarkIndex),
    (∀ k ∈ collectIds l, mapGet idx.itemMap k = mapGet (entriesOf l) k) →
    (∀ k ∈ collectIds l, mapGet idx.childrenIndex k = mapGet (childEntriesOf l) k) →
    RepresentsAll idx l = true := by
  apply forest_induction (P := fun l => (collectIds l).Nodup →
    ∀ (idx : BookmarkIndex),
    (∀ k ∈ collectIds l, mapGet idx.itemMap k = mapGet (entriesOf l) k) →
    (∀ k ∈ collectIds l, mapGet idx.childrenIndex k = mapGet (childEntriesOf l) k) →
    RepresentsAll idx l = true)
  · intro _ idx _ _
    simp [RepresentsAll]
  · intro i t u tg rest ih hn idx h1 h2
    by_cases hi : i = ""
    · subst hi
      have hcoll : collectIds (.leaf "" t u tg :: rest) = collectIds rest := by
        simp [collectIds]
      rw [hcoll] at hn h1 h2
      simp only [RepresentsAll, Bool.and_eq_true, Bool.or_eq_true, decide_eq_true_eq]
      refine ⟨Or.inl trivial, ?_⟩
      refine ih hn idx (fun k hk => ?_) (fun k hk => ?_)
      · rw [h1 k hk]
        simp [entriesOf]
      · rw [h2 k hk]
        simp [childEntriesOf]
    · have hcoll : collectIds (.leaf i t u tg :: rest) = i :: collectIds rest := by
        simp [collectIds, hi]
      rw [hcoll] at hn h1 h2
      obtain ⟨hni, hnrest⟩ := List.nodup_cons.mp hn
      simp only [RepresentsAll, Bool.and_eq_true, Bool.or_eq_true, decide_eq_true_eq,
        beq_iff_eq]
      refine ⟨Or.inr ?_, ?_⟩
      · rw [h1 i (List.mem_cons_self _ _)]
        simp [entriesOf, hi, mapGet]
      · refine ih hnrest idx (fun k hk => ?_) (fun k hk => ?_)
        · rw [h1 k (List.mem_cons_of_mem _ hk)]
          have hik : ¬ (i = k) := fun hc => hni (hc ▸ hk)
          simp [entriesOf, hi, mapGet, hik]
        · rw [h2 k (List.mem_cons_of_mem _ hk)]
          simp [childEntriesOf]
  · intro oid rest ih hn idx h1 h2
    cases oid with
    | none =>
      have hcoll : collectIds (.separator none :: rest) = collectIds rest := by
        simp [collectIds]
      rw [hcoll] at hn h1 h2
      simp only [RepresentsAll, Bool.and_eq_true]
      refine ⟨trivial, ?_⟩
      refine ih hn idx (fun k hk => ?_) (fun k hk => ?_)
      · rw [h1 k hk]
        simp [entriesOf]
      · rw [h2 k hk]
        simp [childEntriesOf]
    | some i =>
      by_cases hi : i = ""
      · subst hi
        have hcoll : collectIds (.separator (some "") :: rest) = collectIds rest := by
          simp [collectIds]
        rw [hcoll] at hn h1 h2
        simp only [RepresentsAll, Bool.and_eq_true, Bool.or_eq_true, decide_eq_true_eq]
        refine ⟨Or.inl trivial, ?_⟩
        refine ih hn idx (fun k hk => ?_) (fun k hk => ?_)
        · rw [h1 k hk]
          simp [entriesOf]
        · rw [h2 k hk]
          simp [childEntriesOf]
      · have hcoll : collectIds (.separator (some i) :: rest) = i :: collectIds rest := by
          simp [collectIds, hi]
        rw [hcoll] at hn h1 h2
        obtain ⟨hni, hnrest⟩ := List.nodup_cons.mp hn
        simp only [RepresentsAll, Bool.and_eq_true, Bool.or_eq_true, decide_eq_true_eq,
          beq_iff_eq]
        refine ⟨Or.inr ?_, ?_⟩
        · rw [h1 i (List.mem_cons_self _ _)]
          simp [entriesOf, hi, mapGet]
        · refine ih hnrest idx (fun k hk => ?_) (fun k hk => ?_)
          · rw [h1 k (List.mem_cons_of_mem _ hk)]
            have hik : ¬ (i = k) := fun hc => hni (hc ▸ hk)
            simp [entriesOf, hi, mapGet, hik]
          · rw [h2 k (List.mem_cons_of_mem _ hk)]
            simp [childEntriesOf]
  · intro i t cs rest ihc ih hn idx h1 h2
    by_cases hi : i = ""
    · subst hi
      have hcoll : collectIds (.folder "" t cs :: rest) = collectIds rest := by
        simp [collectIds]
      rw [hcoll] at hn h1 h2
      simp only [RepresentsAll, Bool.and_eq_true, Bool.or_eq_true, decide_eq_true_eq]
      refine ⟨Or.inl trivial, ?_⟩
      refine ih hn idx (fun k hk => ?_) (fun k hk => ?_)
      · rw [h1 k hk]
        simp [entriesOf]
      · rw [h2 k hk]
        simp [childEntriesOf]
    · have hcoll : collectIds (.folder i t cs :: rest)
          = i :: (collectIds cs ++ collectIds rest) := by
        simp [collectIds, hi]
      rw [hcoll] at hn h1 h2
      obtain ⟨hni, hnrest0⟩ := List.nodup_cons.mp hn
      rw [List.nodup_append] at hnrest0
      obtain ⟨hncs, hnrest, hdisj⟩ := hnrest0
      have hicsnot : i ∉ collectIds cs := fun hc => hni (List.mem_append_left _ hc)
      have hirestnot : i ∉ collectIds rest := fun hc => hni (List.mem_append_right _ hc)
      have hentf : entriesOf (.folder i t cs :: rest)
          = (i, .folder i t cs) :: (entriesOf cs ++ entriesOf rest) := by
        simp [entriesOf, hi]
      have hchf : childEntriesOf (.folder i t cs :: rest)
          = (childEntriesOf cs ++
              (if directIds cs = [] then [] else [(i, directIds cs)])) ++
            childEntriesOf rest := by
        simp [childEntriesOf, hi]
      simp only [RepresentsAll, Bool.and_eq_true, Bool.or_eq_true, decide_eq_true_eq,
        beq_iff_eq]
      refine ⟨Or.inr ⟨⟨?_, ?_⟩, ?_⟩, ?_⟩
      · rw [h1 i (List.mem_cons_self _ _), hentf]
        simp [mapGet]
      · rw [h2 i (List.mem_cons_self _ _), hchf]
        rw [List.append_assoc,
          mapGet_skip_left _ _ _ (childEntriesOf_not_has cs i hicsnot)]
        by_cases hd : directIds cs = []
        · rw [if_pos hd]
          rw [List.nil_append,
            mapGet_none_of_not_has (childEntriesOf_not_has rest i hirestnot)]
          rw [hd]
          rfl
        · rw [if_neg hd]
          simp [mapGet]
      · refine ihc hncs idx (fun k hk => ?_) (fun k hk => ?_)
        · have hik : ¬ (i = k) := fun hc => hicsnot (hc ▸ hk)
          rw [h1 k (List.mem_cons_of_mem _ (List.mem_append_left _ hk)), hentf,
            mapGet_cons]
          rw [if_neg hik]
          obtain ⟨v, hv⟩ := (mapHas_true_iff _ _).mp (entriesOf_has_of_mem cs k hk)
          rw [mapGet_append_left _ _ _ _ hv, hv]
        · have hik : ¬ (i = k) := fun hc => hicsnot (hc ▸ hk)
          rw [h2 k (List.mem_cons_of_mem _ (List.mem_append_left _ hk)), hchf,
            List.append_assoc]
          cases hbk : mapHas (childEntriesOf cs) k with
          | true =>
            obtain ⟨v, hv⟩ := (mapHas_true_iff _ _).mp hbk
            rw [mapGet_append_left _ _ _ _ hv, hv]
          | false =>
            rw [mapGet_skip_left _ _ _ hbk, mapGet_none_of_not_has hbk]
            have hkrest : k ∉ collectIds rest := fun hc => hdisj hk hc
            by_cases hd : directIds cs = []
            · rw [if_pos hd, List.nil_append,
                mapGet_none_of_not_has (childEntriesOf_not_has rest k hkrest)]
            · rw [if_neg hd]
              show mapGet ((i, directIds cs) :: childEntriesOf rest) k = none
              rw [mapGet_cons, if_neg hik,
                mapGet_none_of_not_has (childEntriesOf_not_has rest k hkrest)]
      · refine ih hnrest idx (fun k hk => ?_) (fun k hk => ?_)
        · have hik : ¬ (i = k) := fun hc => hirestnot (hc ▸ hk)
          have hkcs : k ∉ collectIds cs := fun hc => hdisj hc hk
          rw [h1 k (List.mem_cons_of_mem _ (List.mem_append_right _ hk)), hentf,
            mapGet_cons, if_neg hik,
            mapGet_skip_left _ _ _ (entriesOf_not_has cs k hkcs)]
        · have hik : ¬ (i = k) := fun hc => hirestnot (hc ▸ hk)
          have hkcs : k ∉ collectIds cs := fun hc => hdisj hc hk
          rw [h2 k (List.mem_cons_of_mem _ (List.mem_append_right _ hk)), hchf]
          have hleft : mapHas (childEntriesOf cs ++
              (if directIds cs = [] then [] else [(i, directIds cs)])) k = false := by
            rw [mapHas_append, childEntriesOf_not_has cs k hkcs]
            by_cases hd : directIds cs = []
            · rw [if_pos hd]
              rfl
            · rw [if_neg hd]
              simp [mapHas, hik]
          rw [mapGet_skip_left _ _ _ hleft]

theorem build_itemMap (items : List BookmarkItem)
    (hn : (collectIds items).Nodup) :
    (build items).itemMap = entriesOf items := by
  have h := buildItems_spec items none [] emptyIndex hn
    (fun _ _ => rfl) (fun _ _ => rfl)
  show (buildItems items none [] emptyIndex).1.itemMap = _
  rw [h.1]
  rfl

theorem build_childrenIndex (items : List BookmarkItem)
    (hn : (collectIds items).Nodup) :
    (build items).childrenIndex = childEntriesOf items := by
  have h := buildItems_spec items none [] emptyIndex hn
    (fun _ _ => rfl) (fun _ _ => rfl)
  show (buildItems items none [] emptyIndex).1.childrenIndex = _
  rw [h.2.1]
  rfl

theorem build_representsAll (items : List BookmarkItem)
    (hn : (collectIds items).Nodup) :
    RepresentsAll (build items) items = true := by
  refine representsAll_parts items hn (build items) (fun k _ => ?_) (fun k _ => ?_)
  · rw [build_itemMap items hn]
  · rw [build_childrenIndex items hn]

theorem getAllIds_build (items : List BookmarkItem)
    (hn : (collectIds items).Nodup) :
    (build items).getAllIds = collectIds items := by
  show (build items).itemMap.map Prod.fst = _
  rw [build_itemMap items hn, keys_entriesOf]

theorem collectIds_length : ∀ l : List BookmarkItem,
    (collectIds l).length = countTruthy l := by
  apply forest_induction (P := fun l => (collectIds l).length = countTruthy l)
  · simp [collectIds, countTruthy]
  · intro i t u tg rest ih
    by_cases hi : i = ""
    · simp [collectIds, countTruthy, hi, ih]
    · simp [collectIds, countTruthy, hi, ih]
      omega
  · intro oid rest ih
    cases oid with
    | none => simp [collectIds, countTruthy, ih]
    | some i =>
      by_cases hi : i = ""
      · simp [collectIds, countTruthy, hi, ih]
      · simp [collectIds, countTruthy, hi, ih]
        omega
  · intro i t cs rest ihc ih
    by_cases hi : i = ""
    · simp [collectIds, countTruthy, hi, ih]
    · simp [collectIds, countTruthy, hi, ihc, ih]
      omega

theorem representsAll_resolve : ∀ (cs : List BookmarkItem) (idx : BookmarkIndex),
    RepresentsAll idx cs = true →
    ∀ c ∈ cs, ∀ d, truthyId c = some d → mapGet idx.itemMap d = some c := by
  apply forest_induction (P := fun cs => ∀ (idx : BookmarkIndex),
    RepresentsAll idx cs = true →
    ∀ c ∈ cs, ∀ d, truthyId c = some d → mapGet idx.itemMap d = some c)
  · intro idx _ c hc
    exact absurd hc (List.not_mem_nil c)
  · intro i t u tg rest ih idx hr c hc d hd
    simp only [RepresentsAll, Bool.and_eq_true, Bool.or_eq_true, decide_eq_true_eq,
      beq_iff_eq] at hr
    rcases List.mem_cons.mp hc with hc | hc
    · subst hc
      simp only [truthyId, getItemId] at hd
      split at hd
      · exact absurd hd (by simp)
      · rcases hr.1 with hi | hres
        · simp_all
        · simp only [Option.some.injEq] at hd
          rw [← hd]
          exact hres
    · exact ih idx hr.2 c hc d hd
  · intro oid rest ih idx hr c hc d hd
    cases oid with
    | none =>
      simp only [RepresentsAll, Bool.and_eq_true] at hr
      rcases List.mem_cons.mp hc with hc | hc
      · subst hc
        simp only [truthyId, getItemId] at hd
        exact absurd hd (by simp)
      · exact ih idx hr.2 c hc d hd
    | some i =>
      simp only [RepresentsAll, Bool.and_eq_true, Bool.or_eq_true, decide_eq_true_eq,
        beq_iff_eq] at hr
      rcases List.mem_cons.mp hc with hc | hc
      · subst hc
        simp only [truthyId, getItemId] at hd
        split at hd
        · exact absurd hd (by simp)
        · rcases hr.1 with hi | hres
          · simp_all
          · simp only [Option.some.injEq] at hd
            rw [← hd]
            exact hres
      · exact ih idx hr.2 c hc d hd
  · intro i t cs rest ihc ih idx hr c hc d hd
    simp only [RepresentsAll, Bool.and_eq_true, Bool.or_eq_true, decide_eq_true_eq,
      beq_iff_eq] at hr
    rcases List.mem_cons.mp hc with hc | hc
    · subst hc
      simp only [truthyId, getItemId] at hd
      split at hd
      · exact absurd hd (by simp)
      · rcases hr.1 with hi | hres
        · simp_all
        · simp only [Option.some.injEq] at hd
          rw [← hd]
          exact hres.1.1
    · exact ih idx hr.2 c hc d hd

theorem representsAll_inforest : ∀ (l : List BookmarkItem) (idx : BookmarkIndex),
    RepresentsAll idx l = true →
    ∀ i t cs, InForest (.folder i t cs) l = true → ¬ (i = "") →
    mapGet idx.itemMap i = some (.folder i t cs) ∧
    (mapGet idx.childrenIndex i).getD [] = directIds cs ∧
    RepresentsAll idx cs = true := by
  apply forest_induction (P := fun l => ∀ (idx : BookmarkIndex),
    RepresentsAll idx l = true →
    ∀ i t cs, InForest (.folder i t cs) l = true → ¬ (i = "") →
    mapGet idx.itemMap i = some (.folder i t cs) ∧
    (mapGet idx.childrenIndex i).getD [] = directIds cs ∧
    RepresentsAll idx cs = true)
  · intro idx _ i t cs hf _
    simp [InForest] at hf
  · intro j s u tg rest ih idx hr i t cs hf hi
    simp only [RepresentsAll, Bool.and_eq_true] at hr
    simp only [InForest, Bool.or_eq_true, decide_eq_true_eq] at hf
    rcases hf with hf | hf
    · exact absurd hf (by simp)
    · exact ih idx hr.2 i t cs hf hi
  · intro oid rest ih idx hr i t cs hf hi
    cases oid with
    | none =>
      simp only [RepresentsAll, Bool.and_eq_true] at hr
      simp only [InForest, Bool.or_eq_true, decide_eq_true_eq] at hf
      rcases hf with hf | hf
      · exact absurd hf (by simp)
      · exact ih idx hr.2 i t cs hf hi
    | some j =>
      simp only [RepresentsAll, Bool.and_eq_true] at hr
      simp only [InForest, Bool.or_eq_true, decide_eq_true_eq] at hf
      rcases hf with hf | hf
      · exact absurd hf (by simp)
      · exact ih idx hr.2 i t cs hf hi
  · intro j s ds rest ihc ih idx hr i t cs hf hi
    simp only [RepresentsAll, Bool.and_eq_true, Bool.or_eq_true, decide_eq_true_eq,
      beq_iff_eq] at hr
    simp only [InForest, Bool.or_eq_true, decide_eq_true_eq] at hf
    rcases hf with (heq | hin) | hrest
    · have hinj := heq
      simp only [BookmarkItem.folder.injEq] at hinj
      obtain ⟨hij, hts, hcd⟩ := hinj
      subst hij
      subst hts
      subst hcd
      rcases hr.1 with hj | hres
      · exact absurd hj hi
      · exact ⟨hres.1.1, hres.1.2, hres.2⟩
    · by_cases hj : j = ""
      · rw [if_pos hj] at hin
        exact absurd hin (by simp)
      · rw [if_neg hj] at hin
        rcases hr.1 with hj' | hres
        · exact absurd hj' hj
        · exact ihc idx hres.2 i t cs hin hi
    · exact ih idx hr.2 i t cs hrest hi

theorem resolve_filterMap (idx : BookmarkIndex) : ∀ cs : List BookmarkItem,
    (∀ c ∈ cs, ∀ d, truthyId c = some d → mapGet idx.itemMap d = some c) →
    (directIds cs).filterMap (mapGet idx.itemMap)
      = cs.filter (fun c => (truthyId c).isSome) := by
  intro cs
  induction cs with
  | nil =>
    intro _
    simp [directIds]
  | cons c rest ih =>
    intro h
    have hrest := ih (fun c hc d hd => h c (List.mem_cons_of_mem _ hc) d hd)
    cases ht : truthyId c with
    | none =>
      show ((c :: rest).filterMap truthyId).filterMap (mapGet idx.itemMap) = _
      rw [List.filterMap_cons_none ht]
      rw [List.filter_cons_of_neg (by simp [ht])]
      exact hrest
    | some d =>
      have hres := h c (List.mem_cons_self _ _) d ht
      show ((c :: rest).filterMap truthyId).filterMap (mapGet idx.itemMap) = _
      rw [List.filterMap_cons_some ht, List.filterMap_cons_some hres]
      rw [List.filter_cons_of_pos (by simp [ht])]
      simp only [directIds] at hrest
      rw [hrest]

theorem getChildren_inforest (items : List BookmarkItem)
    (hn : (collectIds items).Nodup) (i t : String) (cs : List BookmarkItem)
    (hf : InForest (.folder i t cs) items = true) (hi : ¬ (i = "")) :
    (build items).getChildren i = cs.filter (fun c => (truthyId c).isSome) := by
  have hrep := build_representsAll items hn
  have h3 := representsAll_inforest items (build items) hrep i t cs hf hi
  show ((mapGet (build items).childrenIndex i).getD []).filterMap
      (mapGet (build items).itemMap) = _
  rw [h3.2.1]
  exact resolve_filterMap (build items) cs
    (representsAll_resolve cs (build items) h3.2.2)

/-- C1 counterexample: `buildRecursive` indexes a separator that carries a
truthy id (`getItemId` returns `item.id` for separators too, and the guard
only skips falsy ids), so for the one-separator tree `getAllIds` has one
element while the tree has zero non-separator items — the claimed count
equality fails. -/
theorem c1_counterexample :
    (build [.separator (some "s1")]).getAllIds.length = 1 ∧
    nonSeparatorCount [.separator (some "s1")] = 0 := by
  constructor
  · have hn : (collectIds [BookmarkItem.separator (some "s1")]).Nodup := by
      simp [collectIds]
    rw [getAllIds_build _ hn]
    simp [collectIds]
  · simp [nonSeparatorCount]

/-- C1 (amended): after `build(tree)` on a tree with globally unique ids,
`getAllIds` lists exactly the ids the builder registers in document order —
separators carrying a truthy id included — so its length is the count of
truthy-id items (`countTruthy`), not the non-separator count; and for every
indexed folder of the tree, `getChildren` returns exactly the folder's
direct children that carry a truthy id, in their original order. -/
theorem c1_index_tree_agreement (items : List BookmarkItem)
    (hn : (collectIds items).Nodup) :
    (build items).getAllIds = collectIds items ∧
    (build items).getAllIds.length = countTruthy items ∧
    ∀ i t cs, InForest (.folder i t cs) items = true → ¬ (i = "") →
      (build items).getChildren i = cs.filter (fun c => (truthyId c).isSome) := by
  refine ⟨getAllIds_build items hn, ?_, ?_⟩
  · rw [getAllIds_build items hn, collectIds_length]
  · intro i t cs hf hi
    exact getChildren_inforest items hn i t cs hf hi

theorem c1_index_tree_agreement_witness :
    (build [.folder "f" "F" [.leaf "a" "A" "ua" none, .separator none,
        .leaf "" "B" "ub" none], .leaf "b" "B2" "ub2" none]).getAllIds
      = ["f", "a", "b"] ∧
    (build [.folder "f" "F" [.leaf "a" "A" "ua" none, .separator none,
        .leaf "" "B" "ub" none], .leaf "b" "B2" "ub2" none]).getChildren "f"
      = [.leaf "a" "A" "ua" none] := by
  have h := c1_index_tree_agreement
    [.folder "f" "F" [.leaf "a" "A" "ua" none, .separator none,
      .leaf "" "B" "ub" none], .leaf "b" "B2" "ub2" none]
    (by simp [collectIds])
  constructor
  · rw [h.1]
    simp [collectIds]
  · rw [h.2.2 "f" "F" [.leaf "a" "A" "ua" none, .separator none,
      .leaf "" "B" "ub" none] (by simp [InForest]) (by simp)]
    simp [List.filter, truthyId, getItemId]

/-- C4: the cascade of `delete(folderId, true)` is broken by live-array
iteration.  `for (const childId of childIds)` walks the very array stored in
`childrenIndex`, and each child's deletion splices that child out of it (the
child's `parentMap` entry points back at the folder), so the iterator skips
every other child.  On the two-leaf folder, `delete("f", true)` removes "f"
and "a" but leaves the descendant "b" in `get`/`has`, contradicting the
claim; the claim's other clauses do hold at this input (`delete("f", false)`
removes only the folder, and deleting an absent id is a no-op). -/
theorem c4_recursive_delete_skips_descendant :
    (((build [.folder "f" "F" [.leaf "a" "A" "ua" none, .leaf "b" "B" "ub" none]]).delete
        "f" true).has "f" = false ∧
     ((build [.folder "f" "F" [.leaf "a" "A" "ua" none, .leaf "b" "B" "ub" none]]).delete
        "f" true).has "a" = false ∧
     ((build [.folder "f" "F" [.leaf "a" "A" "ua" none, .leaf "b" "B" "ub" none]]).delete
        "f" true).has "b" = true) ∧
    (((build [.folder "f" "F" [.leaf "a" "A" "ua" none, .leaf "b" "B" "ub" none]]).delete
        "f" false).has "f" = false ∧
     ((build [.folder "f" "F" [.leaf "a" "A" "ua" none, .leaf "b" "B" "ub" none]]).delete
        "f" false).has "a" = true ∧
     ((build [.folder "f" "F" [.leaf "a" "A" "ua" none, .leaf "b" "B" "ub" none]]).delete
        "f" false).has "b" = true) ∧
    (build [.folder "f" "F" [.leaf "a" "A" "ua" none, .leaf "b" "B" "ub" none]]).delete
        "zz" true
      = build [.folder "f" "F" [.leaf "a" "A" "ua" none, .leaf "b" "B" "ub" none]] := by
  have hb : build [.folder "f" "F" [.leaf "a" "A" "ua" none, .leaf "b" "B" "ub" none]]
      = ⟨[("f", .folder "f" "F" [.leaf "a" "A" "ua" none, .leaf "b" "B" "ub" none]),
          ("a", .leaf "a" "A" "ua" none), ("b", .leaf "b" "B" "ub" none)],
         [("a", "f"), ("b", "f")],
         [("f", ["f"]), ("a", ["f", "a"]), ("b", ["f", "b"])],
         [],
         [("ua", "a"), ("ub", "b")],
         [("f", ["a", "b"])]⟩ := by
    show (buildItems _ none [] emptyIndex).1 = _
    simp [buildItems_folder, buildItems_leaf, buildItems_nil, indexOne, emptyIndex,
      mapSet, mapGet, itemTags, itemUrl, addIdToTags, setAdd]
  rw [hb]
  refine ⟨⟨?_, ?_, ?_⟩, ⟨?_, ?_, ?_⟩, ?_⟩ <;> decide
